import Mathlib

/-!
Verification development for the iota tools (search-tool.cpp, ref-tool.cpp,
match-tool.cpp).  The core engine is `process_file` in search-tool.cpp: it
scans a memory-mapped file buffer for a set of literal needles (regex needles
are delegated to std::regex and are outside this development), assigns
line/column coordinates to each match, applies the All/Any multi-needle
filter, optionally merges same-line matches ("merge spreads"), and either
reports matches as TextRefs or rewrites the buffer with a replacement string.

Buffers are modelled as `List Char` (one `Char` per byte).  Functions from the
UU support library that are not part of this repository's sources
(`UU::Spread`, `UU::TextRef` serialization, `UU::find_line_end_offsets`,
`UU::offsets_for_line`) are modelled from the spec and marked as such.
-/

set_option maxHeartbeats 1000000

namespace Iota

/-- `std::tolower` on a byte in the C locale: lower-cases ASCII letters
only, leaves every other byte unchanged. -/
def tolower (c : Char) : Char :=
  if 'A' ≤ c ∧ c ≤ 'Z' then Char.ofNat (c.toNat + 32) else c

/-- The case-folding pass of `process_file` (search-tool.cpp:224-230):
`std::transform` of `tolower` over a copy of the haystack. -/
def case_fold (s : List Char) : List Char := s.map tolower

/-- `needle` occurs in `hay` at byte offset `o`. -/
def occursAt (needle hay : List Char) (o : Nat) : Bool :=
  (hay.drop o).take needle.length == needle

/-- `std::search` over the iterator range starting at byte offset `start`
(search-tool.cpp:240) together with the loop's break test
(search-tool.cpp:241): `std::search` returns an iterator at the first
position at or after `start` at which the needle occurs (an empty needle
occurs at every position, `std::search` then returning `first`), and a
returned iterator equal to `haystack.end()` — position `hay.length` —
makes the loop break, so no match is recorded there. -/
def findFrom (needle hay : List Char) (start : Nat) : Option Nat :=
  match (List.range (hay.length + 1)).find?
      (fun o => decide (start ≤ o) && occursAt needle hay o) with
  | none => none
  | some o => if o = hay.length then none else some o

/-- The literal-needle scan loop of `process_file` (search-tool.cpp:238-246):
repeatedly find the next occurrence at or after `start`; after a hit at `o`
resume at `o + 1` (`hit = ++it`).  `fuel` bounds the recursion; with
`fuel = hay.length + 1 - start` it never cuts the scan short. -/
def literalScan (needle hay : List Char) : Nat → Nat → List Nat
  | 0, _ => []
  | fuel + 1, start =>
    match findFrom needle hay start with
    | none => []
    | some o => o :: literalScan needle hay fuel (o + 1)

/-- All match offsets the scanner reports for one literal needle. -/
def literalOffsets (needle hay : List Char) : List Nat :=
  literalScan needle hay (hay.length + 1) 0

/-- One stretch of a `UU::Spread<Size>`, modelled from the spec: a half-open
integer range `[first, last)`. -/
abbrev Stretch := Nat × Nat

/-- The `Match` record of search-tool.cpp (lines 172-205). -/
structure Match where
  needle_index : Nat := 0
  spread : List Stretch := []
  line_start_index : Nat := 0
  line_length : Nat := 0
  line : Nat := 0
deriving Repr, DecidableEq

instance : Inhabited Match := ⟨{}⟩

/-- `Match::match_start_index()`: the first offset of the match spread. -/
def Match.match_start_index (m : Match) : Nat := m.spread.headI.1

/-- The `Match(needle_index, match_start_index, match_length)` constructor:
a single stretch `[start, start + length)`. -/
def mkMatch (needle_index match_start_index match_length : Nat) : Match :=
  { needle_index := needle_index,
    spread := [(match_start_index, match_start_index + match_length)] }

/-- The string-search loop of `process_file` (search-tool.cpp:236-248): for
each literal needle in order (its position is `needle_index`), record a
`Match` per reported occurrence. -/
def string_search (needles : List (List Char)) (hay : List Char) : List Match :=
  (needles.enum.map (fun p =>
    (literalOffsets p.2 hay).map (fun o => mkMatch p.1 o p.2.length))).flatten

/-- Sorted insertion of one element under a boolean order. -/
def insertLe (le : α → α → Bool) (a : α) : List α → List α
  | [] => [a]
  | b :: t => if le a b then a :: b :: t else b :: insertLe le a t

/-- Insertion sort under a boolean order, modelling `std::sort` (which
promises only an ordering consistent with the comparator). -/
def sortLe (le : α → α → Bool) : List α → List α
  | [] => []
  | a :: t => insertLe le a (sortLe le t)

/-- The comparator of the sort at search-tool.cpp:270-272. -/
def matchLe (a b : Match) : Bool :=
  decide (a.match_start_index ≤ b.match_start_index)

/-- The sort of `process_file` (search-tool.cpp:269-273): order matches by
ascending `match_start_index`. -/
def sortMatches (ms : List Match) : List Match :=
  sortLe matchLe ms

/-- Modelled from the spec: the recursion behind `UU::find_line_end_offsets`.
Scan from byte offset `i`, collecting the offset of each newline, and stop
once the line containing offset `last` has been bounded: either by the first
newline at an offset `≥ last`, or by the end of the buffer, whose offset is
used as the implicit terminator. -/
def lineEndOffsetsFrom (last : Nat) : List Char → Nat → List Nat
  | [], i => [i]
  | c :: rest, i =>
    if c = '\n' then
      if last ≤ i then [i] else i :: lineEndOffsetsFrom last rest (i + 1)
    else lineEndOffsetsFrom last rest (i + 1)

/-- Modelled from the spec: `UU::find_line_end_offsets(haystack, last)`
(called at search-tool.cpp:276) produces the list of line-ending offsets
found by scanning the buffer up to and including the line containing
offset `last`. -/
def find_line_end_offsets (hay : List Char) (last : Nat) : List Nat :=
  lineEndOffsetsFrom last hay 0

/-- Modelled from the spec: `UU::offsets_for_line(haystack, offsets, n)`
(called at search-tool.cpp:284) for a 1-based line number `n`: the line's
start offset (previous boundary + 1, or 0 for the first line) and its end
boundary (`offsets[n-1]`), or no result when `n` is out of range. -/
def offsets_for_line (offsets : List Nat) (n : Nat) : Option (Nat × Nat) :=
  if n = 0 then none
  else
    match offsets[n - 1]? with
    | none => none
    | some e =>
      if n = 1 then some (0, e)
      else
        match offsets[n - 2]? with
        | none => none
        | some p => some (p + 1, e)

/-- The line-cursor loop of `process_file` (search-tool.cpp:280-283), with
the recursion bounded by explicit fuel: advance `line` while
`offsets[line] < start`; the result is the first index at or after `line`
whose boundary is `≥ start`.  Running past the end of the offsets list (the
`ASSERT(line < haystack_line_end_offsets.size())` failure) is modelled as
`none`; so long as `fuel + line > offsets.length` the fuel never runs out
before the list does. -/
def findLineIdxGo (offsets : List Nat) (start : Nat) : Nat → Nat → Option Nat
  | 0, _ => none
  | fuel + 1, line =>
    match offsets[line]? with
    | none => none
    | some v => if v < start then findLineIdxGo offsets start fuel (line + 1) else some line

/-- The line-cursor loop with enough fuel for any starting index. -/
def findLineIdx (offsets : List Nat) (start : Nat) (line : Nat) : Option Nat :=
  findLineIdxGo offsets start (offsets.length + 1) line

/-- The body of the line-metadata loop (search-tool.cpp:284-291): look up the
1-based line `l + 1`; when both offsets are available set the match's line
start and length; always set the 1-based line number. -/
def set_line_meta (offsets : List Nat) (m : Match) (l : Nat) : Match :=
  match offsets_for_line offsets (l + 1) with
  | some (sidx, eidx) =>
    { m with line_start_index := sidx, line_length := eidx - sidx, line := l + 1 }
  | none => { m with line := l + 1 }

/-- The line-metadata loop of `process_file` (search-tool.cpp:278-292): a
monotone cursor walks the line-end offsets once, assigning each match its
line metadata; `none` models an assertion failure in the cursor loop. -/
def assignLines (offsets : List Nat) : List Match → Nat → Option (List Match)
  | [], _ => some []
  | m :: rest, line =>
    match findLineIdx offsets m.match_start_index line with
    | none => none
    | some l =>
      match assignLines offsets rest l with
      | none => none
      | some ms => some (set_line_meta offsets m l :: ms)

/-- The `MatchType::All` filter loop of `process_file` (search-tool.cpp:
296-325), with the current run of same-line matches carried as a list
(`matches[sidx..idx)` in the source) and the `std::set` of needle indexes
seen on the current line carried as a `Finset`.  The source initializes
`current_line` to the first match's line before comparing, so the
`current_line == 0` case is folded into the same-line test, and after
either of those cases `current_line` equals the match's line.  A finished
run is flushed exactly when the set's size equals the needle count. -/
def filterAllGo (needle_count : Nat) :
    List Match → Nat → Finset Nat → List Match → List Match
  | [], _, matched, run => if matched.card = needle_count then run else []
  | m :: rest, current_line, matched, run =>
    if current_line = 0 ∨ m.line = current_line then
      filterAllGo needle_count rest m.line (insert m.needle_index matched) (run ++ [m])
    else
      (if matched.card = needle_count then run else []) ++
        filterAllGo needle_count rest m.line {m.needle_index} [m]

/-- The `MatchType::All` filter (search-tool.cpp:296-325). -/
def filterAll (needle_count : Nat) (ms : List Match) : List Match :=
  filterAllGo needle_count ms 0 ∅ []

/-- Apply `f` to the last element of a list (`filtered_matches.back()`). -/
def updateLast (f : α → α) : List α → List α
  | [] => []
  | [a] => [f a]
  | a :: rest => a :: updateLast f rest

/-- `Match::add_spread` via `UU::Spread::add(spread)`, modelled from the
spec: insert the given stretches into the range set; merging happens in the
separate simplify step. -/
def Match.add_spread (m : Match) (s : List Stretch) : Match :=
  { m with spread := m.spread ++ s }

/-- Insertion step for ordering stretches by their start. -/
def insertStretch (s : Stretch) : List Stretch → List Stretch
  | [] => [s]
  | t :: rest => if s.1 ≤ t.1 then s :: t :: rest else t :: insertStretch s rest

/-- Order stretches by ascending start offset. -/
def sortStretches : List Stretch → List Stretch
  | [] => []
  | s :: rest => insertStretch s (sortStretches rest)

/-- Merge pass over stretches ordered by start, carrying the range being
grown: a next range that overlaps or touches the current one is absorbed
into it. -/
def mergeTouchingGo (cur : Stretch) : List Stretch → List Stretch
  | [] => [cur]
  | t :: rest =>
    if t.1 ≤ cur.2 then mergeTouchingGo (cur.1, max cur.2 t.2) rest
    else cur :: mergeTouchingGo t rest

/-- Merge pass over stretches ordered by start: two consecutive ranges that
overlap or touch are merged into one. -/
def mergeTouching : List Stretch → List Stretch
  | [] => []
  | s :: rest => mergeTouchingGo s rest

/-- Modelled from the spec: `UU::Spread::simplify()` brings the range set to
its maximally merged state: any two ranges that overlap or touch become one. -/
def simplifySpread (ss : List Stretch) : List Stretch :=
  mergeTouching (sortStretches ss)

/-- `Match::simplify_spread()` (search-tool.cpp:186). -/
def Match.simplify_spread (m : Match) : Match :=
  { m with spread := simplifySpread m.spread }

/-- The merge-spreads loop of `process_file` (search-tool.cpp:336-346): a
match on the current line adds its spread to the last accumulated match;
otherwise it starts a new accumulated match. -/
def mergeSpreadsGo : List Match → Nat → List Match → List Match
  | [], _, acc => acc
  | m :: rest, current_line, acc =>
    if current_line = m.line then
      mergeSpreadsGo rest current_line (updateLast (fun b => b.add_spread m.spread) acc)
    else
      mergeSpreadsGo rest m.line (acc ++ [m])

/-- The merge-spreads phase of `process_file` (search-tool.cpp:333-351):
merge the contiguous same-line runs, then simplify every spread. -/
def merge_spreads (ms : List Match) : List Match :=
  (mergeSpreadsGo ms 0 []).map Match.simplify_spread

/-- `UU::TextRef`, modelled from the spec: one reported match (or merged
match group): index, file path, 1-based line, column range set, display
text. -/
structure TextRef where
  index : Nat := 0
  filename : String := ""
  line : Nat := 0
  column_spread : List Stretch := []
  message : List Char := []
deriving Repr, DecidableEq

instance : Inhabited TextRef := ⟨{}⟩

/-- `StringView::substr(pos, count)` on a byte buffer (clamping at the end,
as in C++). -/
def substr (s : List Char) (pos count : Nat) : List Char :=
  (s.drop pos).take count

/-- The column translation of the Search-mode loop (search-tool.cpp:359-363):
each stretch `[first, last)` of the match spread becomes the column range
`[first - line_start + 1, last - line_start + 1)`. -/
def column_spread_of (m : Match) : List Stretch :=
  m.spread.map (fun s => (s.1 - m.line_start_index + 1, s.2 - m.line_start_index + 1))

/-- The `Mode::Search` output loop of `process_file` (search-tool.cpp:
354-366): one TextRef per match, numbered from 1, whose message is the
match's line sliced from the original `source` buffer. -/
def search_refs (filename : String) (source : List Char) (ms : List Match) : List TextRef :=
  ms.enum.map (fun p =>
    { index := p.1 + 1,
      filename := filename,
      line := p.2.line,
      column_spread := column_spread_of p.2,
      message := substr source p.2.line_start_index p.2.line_length })

/-- The loop state of the replace engine's inner stretch loop
(search-tool.cpp:378-402). -/
structure ReplaceAcc where
  output : List Char := []
  source_index : Nat := 0
  output_line : List Char := []
  output_line_index : Nat := 0
  output_spread : List Stretch := []
deriving Repr, DecidableEq

/-- One iteration of the stretch loop of the replace engine
(search-tool.cpp:386-402): copy `[source_index, stretch.first)` of the
source to the output, append the replacement, and advance the cursor past
the stretch; build the per-line preview and its replacement column range the
same way. -/
def replace_stretch (source repl source_line : List Char) (line_start_index : Nat)
    (acc : ReplaceAcc) (s : Stretch) : ReplaceAcc :=
  let output := acc.output ++ substr source acc.source_index (s.1 - acc.source_index) ++ repl
  let source_index := acc.source_index + (s.1 - acc.source_index) + (s.2 - s.1)
  let start_column := s.1 - line_start_index
  let line1 := acc.output_line ++ substr source_line acc.output_line_index (start_column - acc.output_line_index)
  let replacement_start_column := line1.length + 1
  let line2 := line1 ++ repl
  let replacement_end_column := line2.length + 1
  let output_line_index := acc.output_line_index + (start_column - acc.output_line_index) + (s.2 - s.1)
  { output := output,
    source_index := source_index,
    output_line := line2,
    output_line_index := output_line_index,
    output_spread := acc.output_spread ++ [(replacement_start_column, replacement_end_column)] }

/-- One iteration of the replace engine's match loop (search-tool.cpp:
378-409): run the stretch loop over the match's spread, finish the preview
line with the remaining tail of the source line, and append the TextRef
carrying the replaced line text. -/
def replace_match (filename : String) (source repl : List Char)
    (st : List Char × Nat × List TextRef) (m : Match) : List Char × Nat × List TextRef :=
  let source_line := substr source m.line_start_index m.line_length
  let acc0 : ReplaceAcc := { output := st.1, source_index := st.2.1 }
  let acc := m.spread.foldl (replace_stretch source repl source_line m.line_start_index) acc0
  let output_line := acc.output_line ++ source_line.drop acc.output_line_index
  let refs := st.2.2
  let ref : TextRef :=
    { index := refs.length + 1,
      filename := filename,
      line := m.line,
      column_spread := acc.output_spread,
      message := output_line }
  (acc.output, acc.source_index, refs ++ [ref])

/-- The replace engine of `process_file` (search-tool.cpp:373-411): walk the
matches with a source cursor, and after the loop append the remaining tail
of the source to the output buffer. -/
def replace_phase (filename : String) (source repl : List Char) (ms : List Match) :
    List Char × List TextRef :=
  let st := ms.foldl (replace_match filename source repl) ([], 0, [])
  (st.1 ++ source.drop st.2.1, st.2.2)

/-- `enum Mode` (search-tool.cpp:66). -/
inductive Mode | Search | SearchAndReplace | SearchAndReplaceDryRun
deriving DecidableEq, Repr

/-- `enum MatchType` (search-tool.cpp:67). -/
inductive MatchType | All | Any
deriving DecidableEq, Repr

/-- `enum SearchCase` (search-tool.cpp:68). -/
inductive SearchCase | Sensitive | Insensitive
deriving DecidableEq, Repr

/-- `enum MergeSpreads` (search-tool.cpp:81). -/
inductive MergeSpreads | No | Yes
deriving DecidableEq, Repr

/-- The fields of `Env` (search-tool.cpp:83-131) that the engine reads.
Regex needles are delegated to std::regex and are not modelled; the
display-only fields (filename format, highlight color) do not affect which
refs are produced or what is written. -/
structure Env where
  string_needles : List (List Char) := []
  replacement : List Char := []
  match_type : MatchType := MatchType.All
  merge_spreads : MergeSpreads := MergeSpreads.Yes
  mode : Mode := Mode.Search
  search_case : SearchCase := SearchCase.Sensitive

/-- What one `process_file` call produces: its TextRefs, and the buffer it
writes back to the file's path, if any (`UU::write_file` at
search-tool.cpp:415). -/
structure ProcessResult where
  refs : List TextRef := []
  write : Option (List Char) := none
deriving DecidableEq, Repr

/-- The haystack selection of `process_file` (search-tool.cpp:221-230): the
case-folded copy under insensitive search, the source itself otherwise. -/
def haystack_of (env : Env) (source : List Char) : List Char :=
  match env.search_case with
  | SearchCase.Insensitive => case_fold source
  | SearchCase.Sensitive => source

/-- The scan phase of `process_file` (search-tool.cpp:235-248): all raw
matches of the literal needles against the haystack. -/
def scan_stage (env : Env) (source : List Char) : List Match :=
  string_search env.string_needles (haystack_of env source)

/-- The conditional sort of `process_file` (search-tool.cpp:266-273). -/
def sort_stage (env : Env) (found : List Match) : List Match :=
  if env.string_needles.length > 1 then sortMatches found else found

/-- The line-metadata phase of `process_file` (search-tool.cpp:275-292):
line-end offsets are computed up to the last match's start offset, then the
monotone cursor assigns each match its line. -/
def line_stage (env : Env) (source : List Char) : Option (List Match) :=
  let sorted := sort_stage env (scan_stage env source)
  let offsets :=
    find_line_end_offsets (haystack_of env source) (sorted.getLastD default).match_start_index
  assignLines offsets sorted 0

/-- The filter phase of `process_file` (search-tool.cpp:294-325): applied
only with `MatchType::All` and more than one needle. -/
def filter_stage (env : Env) (ms : List Match) : List Match :=
  if env.match_type = MatchType.All ∧ env.string_needles.length > 1 then
    filterAll env.string_needles.length ms
  else ms

/-- The merge phase of `process_file` (search-tool.cpp:332-351). -/
def merge_stage (env : Env) (ms : List Match) : List Match :=
  match env.merge_spreads with
  | MergeSpreads.Yes => merge_spreads ms
  | MergeSpreads.No => ms

/-- `process_file` (search-tool.cpp:207-419) on an already-mapped source
buffer, for literal needles.  The `assignLines` assertion failure is
modelled as an empty result; it is shown unreachable below. -/
def process_file (filename : String) (env : Env) (source : List Char) : ProcessResult :=
  if scan_stage env source = [] then {}
  else
    match line_stage env source with
    | none => {}
    | some ms0 =>
      let ms1 := filter_stage env ms0
      if ms1 = [] then {}
      else
        let ms2 := merge_stage env ms1
        match env.mode with
        | Mode.Search => { refs := search_refs filename source ms2 }
        | _ =>
          let pr := replace_phase filename source env.replacement ms2
          { refs := pr.2,
            write := if env.mode = Mode.SearchAndReplace then some pr.1 else none }

/-- The on-disk content after one `process_file` call on a file whose bytes
were `source`: the written buffer if the call wrote one, the old bytes
otherwise. -/
def disk_after (source : List Char) (r : ProcessResult) : List Char :=
  r.write.getD source

/-- `process_file` including the open/map step (search-tool.cpp:216-219):
`none` stands for a file that cannot be opened or mapped, which yields the
empty result list. -/
def process_file_opt (filename : String) (env : Env) (source : Option (List Char)) :
    ProcessResult :=
  match source with
  | none => {}
  | some buf => process_file filename env buf

/-- The scheduler join (search-tool.cpp:671-684): every file's result list
is concatenated, in file order. -/
def run_all (env : Env) (files : List (String × Option (List Char))) : List TextRef :=
  (files.map (fun f => (process_file_opt f.1 env f.2).refs)).flatten

/-- The lowest column of a TextRef's column range set. -/
def TextRef.lowest_column (r : TextRef) : Nat :=
  ((r.column_spread.map Prod.fst).min?).getD 0

/-- Modelled from the spec: the `std::less<TextRef>` total order used at
search-tool.cpp:423: by file path, then line number, then lowest column. -/
def TextRef.le (a b : TextRef) : Bool :=
  if a.filename ≠ b.filename then decide (a.filename < b.filename)
  else if a.line ≠ b.line then decide (a.line < b.line)
  else decide (a.lowest_column ≤ b.lowest_column)

/-- The renumbering loop of `output_refs` (search-tool.cpp:427-430):
indices are reassigned 1..N in list order. -/
def set_indices (refs : List TextRef) : List TextRef :=
  refs.enum.map (fun p => { p.2 with index := p.1 + 1 })

/-- `output_refs` (search-tool.cpp:421-442) as a transformation of the final
ref list: one sort by the TextRef total order, then index reassignment. -/
def output_refs (refs : List TextRef) : List TextRef :=
  set_indices (sortLe TextRef.le refs)

/-- Decimal rendering of a natural number, digit characters most significant
first. -/
def renderNat (n : Nat) : List Char :=
  if n = 0 then ['0'] else (Nat.digits 10 n).reverse.map Nat.digitChar

/-- Is this character an ASCII decimal digit? -/
def isDigitChar (c : Char) : Bool :=
  decide ('0' ≤ c) && decide (c ≤ '9')

/-- The numeric value of an ASCII decimal digit character. -/
def digitVal (c : Char) : Nat := c.toNat - '0'.toNat

/-- Parse a nonempty all-digit character list as a decimal natural. -/
def parseNat (ds : List Char) : Option Nat :=
  if ds ≠ [] ∧ ds.all isDigitChar then
    some (Nat.ofDigits 10 ((ds.map digitVal).reverse))
  else none

/-- Modelled from the spec: the persisted reference rendering
(`TextRef::to_string(StandardFeatures, FilenameFormat::ABSOLUTE)`, written
at search-tool.cpp:453): one line carrying the index, the file path, the
line number and the column. -/
def TextRef.to_line (r : TextRef) : List Char :=
  renderNat r.index ++ [')', ' '] ++ r.filename.toList ++ [':'] ++
    renderNat r.line ++ [':'] ++ renderNat r.lowest_column

/-- Modelled from the spec: `TextRef::from_string` as used by ref-tool.cpp:
152-157 to recover the `(file path, line, column)` triple from one
persisted line. -/
def TextRef.from_line (cs : List Char) : Option (String × Nat × Nat) :=
  let idxDigits := cs.takeWhile isDigitChar
  match parseNat idxDigits, cs.drop idxDigits.length with
  | some _, ')' :: ' ' :: rest2 =>
    let path := rest2.takeWhile (fun c => !(c == ':'))
    match rest2.drop path.length with
    | ':' :: rest3 =>
      let lineDigits := rest3.takeWhile isDigitChar
      match parseNat lineDigits, rest3.drop lineDigits.length with
      | some ln, ':' :: rest4 =>
        match parseNat rest4 with
        | some col => some (String.mk path, ln, col)
        | none => none
      | _, _ => none
    | _ => none
  | _, _ => none

/-- The persisted-reference write loop (search-tool.cpp:444-458): every
final TextRef becomes one line of the reference file. -/
def write_refs (refs : List TextRef) : List (List Char) :=
  refs.map TextRef.to_line

theorem length_dropWhile_le (p : α → Bool) (l : List α) :
    (l.dropWhile p).length ≤ l.length := by
  induction l with
  | nil => simp
  | cons a t ih =>
    by_cases h : p a
    · simp only [List.dropWhile_cons, h, if_true]
      exact Nat.le_succ_of_le ih
    · simp [List.dropWhile_cons, h]

/-- The spec's grouping of a match list into contiguous runs of identical
line number. -/
def chunkByLine : List Match → List (List Match)
  | [] => []
  | m :: rest =>
    (m :: rest.takeWhile (fun x => x.line = m.line)) ::
      chunkByLine (rest.dropWhile (fun x => x.line = m.line))
termination_by l => l.length
decreasing_by
  exact Nat.lt_succ_of_le (length_dropWhile_le _ _)

/-- The spec's keep test for a run under `MatchType::All`: every needle
index below the needle count appears among the run's matches. -/
def runCoversAll (needle_count : Nat) (run : List Match) : Bool :=
  (List.range needle_count).all (fun i => run.any (fun m => m.needle_index = i))

/-- Follows the spec's words for the `All` filter: keep exactly the
contiguous same-line runs on which every needle matched, each kept run
retained unmodified. -/
def filterAllSpec (needle_count : Nat) (ms : List Match) : List Match :=
  ((chunkByLine ms).filter (runCoversAll needle_count)).flatten

/-- Follows the spec's words for compaction: one aggregated record per run,
carrying the first match's metadata and the union of the run's ranges. -/
def mergedOf (run : List Match) : Match :=
  { run.headI with spread := (run.map Match.spread).flatten }

/-- The `std::set` of needle indexes occurring in a run. -/
def indexSet (run : List Match) : Finset Nat :=
  (run.map Match.needle_index).toFinset

/-- All stretches of a match list, in match order (the ranges the replace
engine walks). -/
def all_stretches (ms : List Match) : List Stretch :=
  (ms.map Match.spread).flatten

/-- The total length of a list of half-open stretches. -/
def spansLen (ss : List Stretch) : Nat :=
  (ss.map (fun s => s.2 - s.1)).sum

/-- Follows the spec's words for the replace engine: copy
`[cursor, range.start)` verbatim, append the replacement, continue from
`range.end`; after the last range copy the remaining tail. -/
def spec_replace (source repl : List Char) : Nat → List Stretch → List Char
  | cursor, [] => source.drop cursor
  | cursor, s :: rest =>
    (source.take s.1).drop cursor ++ repl ++ spec_replace source repl s.2 rest

/-- The Search-mode column translation of one stretch relative to a line
start (search-tool.cpp:360-361). -/
def shiftCol (line_start : Nat) (s : Stretch) : Stretch :=
  (s.1 - line_start + 1, s.2 - line_start + 1)

/-- A TextRef with its (renumbered) index forgotten, to speak about the
content of the final list independently of index assignment. -/
def strip_index (r : TextRef) : TextRef :=
  { r with index := 0 }

theorem find?_decomp {α} {p : α → Bool} :
    ∀ {l : List α} {a : α}, l.find? p = some a →
      ∃ l1 l2, l = l1 ++ a :: l2 ∧ ∀ x ∈ l1, p x = false := by
  intro l
  induction l with
  | nil => intro a h; simp [List.find?] at h
  | cons b t ih =>
    intro a h
    by_cases hb : p b
    · rw [List.find?_cons_of_pos _ hb] at h
      obtain rfl : b = a := by injection h
      exact ⟨[], t, rfl, by simp⟩
    · rw [List.find?_cons_of_neg _ (by simpa using hb)] at h
      obtain ⟨l1, l2, hdec, hl1⟩ := ih h
      exact ⟨b :: l1, l2, by rw [hdec, List.cons_append], by
        intro x hx
        rcases List.mem_cons.mp hx with rfl | hx
        · simpa using hb
        · exact hl1 x hx⟩

theorem find?_range_min {p : Nat → Bool} {n a : Nat}
    (h : (List.range n).find? p = some a) : ∀ x, x < a → p x = false := by
  obtain ⟨l1, l2, hdec, hl1⟩ := find?_decomp h
  have hlt : l1.length < n := by
    have := congrArg List.length hdec
    simp at this
    omega
  have ha : a = l1.length := by
    have h1 : (List.range n)[l1.length]? = some l1.length := by
      rw [List.getElem?_range hlt]
    rw [hdec] at h1
    rw [List.getElem?_append_right (le_refl l1.length)] at h1
    simp at h1
    omega
  have hl1r : l1 = List.range l1.length := by
    have ht := congrArg (List.take l1.length) hdec
    rw [List.take_left] at ht
    rw [← ht, List.take_range, Nat.min_eq_left (Nat.le_of_lt hlt)]
    simp
  intro x hx
  apply hl1
  rw [hl1r, List.mem_range]
  omega

theorem findFrom_none {needle hay : List Char} {start : Nat}
    (h : findFrom needle hay start = none) :
    ∀ o, start ≤ o → o < hay.length → occursAt needle hay o = false := by
  intro o h1 h2
  unfold findFrom at h
  split at h
  · rename_i hf
    have := List.find?_eq_none.mp hf o (by simp [List.mem_range]; omega)
    simpa [h1] using this
  · rename_i o0 hf
    split at h
    · rename_i ho0
      have hmin := find?_range_min hf o (by omega)
      simpa [h1] using hmin
    · simp at h

theorem findFrom_some {needle hay : List Char} {start o : Nat}
    (h : findFrom needle hay start = some o) :
    start ≤ o ∧ o < hay.length ∧ occursAt needle hay o = true ∧
      ∀ x, start ≤ x → x < o → occursAt needle hay x = false := by
  unfold findFrom at h
  split at h
  · simp at h
  · rename_i o0 hf
    split at h
    · simp at h
    · rename_i ho0
      obtain rfl : o0 = o := by injection h
      have hp := List.find?_some hf
      have hm := List.mem_of_find?_eq_some hf
      simp [List.mem_range] at hm
      simp only [Bool.and_eq_true, decide_eq_true_eq] at hp
      refine ⟨hp.1, by omega, hp.2, ?_⟩
      intro x h1 h2
      have := find?_range_min hf x h2
      simpa [h1] using this

theorem literalScan_mem {needle hay : List Char} :
    ∀ (fuel start : Nat), hay.length + 1 ≤ fuel + start →
      ∀ o, o ∈ literalScan needle hay fuel start ↔
        (start ≤ o ∧ o < hay.length ∧ occursAt needle hay o = true) := by
  intro fuel
  induction fuel with
  | zero =>
    intro start hf o
    simp only [literalScan, List.not_mem_nil, false_iff]
    intro hc
    omega
  | succ fuel ih =>
    intro start hf o
    simp only [literalScan]
    cases h : findFrom needle hay start with
    | none =>
      simp only [List.not_mem_nil, false_iff]
      intro hc
      have := findFrom_none h o hc.1 hc.2.1
      rw [this] at hc
      exact Bool.false_ne_true hc.2.2
    | some o0 =>
      obtain ⟨h1, h2, h3, h4⟩ := findFrom_some h
      rw [List.mem_cons, ih (o0 + 1) (by omega) o]
      constructor
      · rintro (rfl | ⟨ha, hb, hc⟩)
        · exact ⟨h1, h2, h3⟩
        · exact ⟨by omega, hb, hc⟩
      · rintro ⟨ha, hb, hc⟩
        rcases Nat.lt_trichotomy o o0 with hlt | rfl | hgt
        · rw [h4 o ha hlt] at hc
          exact absurd hc Bool.false_ne_true
        · exact Or.inl rfl
        · exact Or.inr ⟨by omega, hb, hc⟩

theorem literalOffsets_mem (needle hay : List Char) (o : Nat) :
    o ∈ literalOffsets needle hay ↔ (o < hay.length ∧ occursAt needle hay o = true) := by
  rw [literalOffsets, literalScan_mem (hay.length + 1) 0 (by omega) o]
  simp

theorem insertLe_perm (le : α → α → Bool) (a : α) (l : List α) :
    (insertLe le a l).Perm (a :: l) := by
  induction l with
  | nil => exact List.Perm.refl _
  | cons b t ih =>
    by_cases h : le a b
    · simp [insertLe, h]
    · simp only [insertLe, h, if_false]
      exact ((ih.cons b).trans (List.Perm.swap a b t))

theorem sortLe_perm (le : α → α → Bool) (l : List α) : (sortLe le l).Perm l := by
  induction l with
  | nil => exact List.Perm.refl _
  | cons a t ih => exact (insertLe_perm le a (sortLe le t)).trans (ih.cons a)

theorem insertLe_pairwise (le : α → α → Bool)
    (htot : ∀ a b, le a b = true ∨ le b a = true)
    (htrans : ∀ a b c, le a b = true → le b c = true → le a c = true)
    (a : α) (l : List α) (h : l.Pairwise (fun x y => le x y = true)) :
    (insertLe le a l).Pairwise (fun x y => le x y = true) := by
  induction l with
  | nil => simp [insertLe]
  | cons b t ih =>
    rcases h with _ | ⟨hb, ht⟩
    by_cases hab : le a b
    · simp only [insertLe, hab, if_true]
      refine List.Pairwise.cons ?_ (List.Pairwise.cons hb ht)
      intro x hx
      rcases List.mem_cons.mp hx with rfl | hx
      · exact hab
      · exact htrans a b x hab (hb x hx)
    · simp only [insertLe, hab, if_false]
      refine List.Pairwise.cons ?_ (ih ht)
      intro x hx
      have hperm := insertLe_perm le a t
      rcases List.mem_cons.mp (hperm.mem_iff.mp hx) with rfl | h1
      · rcases htot x b with h2 | h2
        · exact absurd h2 hab
        · exact h2
      · exact hb x h1

theorem sortLe_pairwise (le : α → α → Bool)
    (htot : ∀ a b, le a b = true ∨ le b a = true)
    (htrans : ∀ a b c, le a b = true → le b c = true → le a c = true) (l : List α) :
    (sortLe le l).Pairwise (fun x y => le x y = true) := by
  induction l with
  | nil => simp [sortLe]
  | cons a t ih => exact insertLe_pairwise le htot htrans a (sortLe le t) ih

/-- C2: the spec claims literal matches are non-overlapping, with exactly
two matches at offsets 0 and 2 for needle "aa" in buffer "aaaa".  The
scanner in fact resumes one byte after each match start (`hit = ++it`,
search-tool.cpp:245), so it reports the overlapping occurrence at offset 1
as well: the claimed output [0, 2] is wrong. -/
theorem C2_counterexample :
    literalOffsets ['a', 'a'] ['a', 'a', 'a', 'a'] ≠ [0, 2] := by decide

/-- C2 (amended): literal matches may overlap.  The scanner reports, in
ascending order, exactly the occurrence offsets of the needle that lie
strictly below the buffer length (resuming at `start + 1` after each hit,
and never recording a match when `std::search` returns the end iterator —
which for a nonempty needle is every occurrence, and for an empty needle
is offsets 0..len−1); in particular "aaaa" searched for "aa" yields
exactly three matches, at offsets 0, 1 and 2. -/
theorem C2_amended_overlapping_matches :
    (∀ needle hay : List Char, ∀ o : Nat,
        o ∈ literalOffsets needle hay ↔
          (o < hay.length ∧ occursAt needle hay o = true)) ∧
    literalOffsets ['a', 'a'] ['a', 'a', 'a', 'a'] = [0, 1, 2] ∧
    literalOffsets [] ['a'] = [0] ∧
    literalOffsets [] ([] : List Char) = [] :=
  ⟨literalOffsets_mem, by decide, by decide, by decide⟩

/-- C9: a file that cannot be opened or mapped contributes an empty result
list; a file where no needle matches, or where the All-filter drops every
match, contributes an empty result list; and in the scheduler join, a
failed file leaves every other file's results untouched. -/
theorem C9_per_file_recovery (env : Env) (fn fn2 : String)
    (source1 source2 : List Char) (ms0 : List Match)
    (files1 files2 : List (String × Option (List Char)))
    (h1 : scan_stage env source1 = [])
    (h2 : line_stage env source2 = some ms0)
    (h3 : filter_stage env ms0 = []) :
    process_file_opt fn env none = {} ∧
    process_file fn env source1 = {} ∧
    process_file fn2 env source2 = {} ∧
    run_all env (files1 ++ (fn, none) :: files2) = run_all env files1 ++ run_all env files2 := by
  refine ⟨rfl, ?_, ?_, ?_⟩
  · simp [process_file, h1]
  · by_cases hs : scan_stage env source2 = []
    · simp [process_file, hs]
    · simp [process_file, hs, h2, h3]
  · simp [run_all, process_file_opt]

theorem C9_witness :
    process_file_opt "a.txt" { string_needles := [['a'], ['b']] } none = {} ∧
    process_file "a.txt" { string_needles := [['a'], ['b']] } ['z'] = {} ∧
    process_file "b.txt" { string_needles := [['a'], ['b']] } ['a'] = {} ∧
    run_all { string_needles := [['a'], ['b']] } ([] ++ ("a.txt", none) :: []) =
      run_all { string_needles := [['a'], ['b']] } [] ++
        run_all { string_needles := [['a'], ['b']] } [] :=
  C9_per_file_recovery { string_needles := [['a'], ['b']] } "a.txt" "b.txt" ['z'] ['a']
    [{ needle_index := 0, spread := [(0, 1)], line_start_index := 0, line_length := 1,
       line := 1 }]
    [] [] (by decide) (by decide) (by decide)

theorem scan_stage_mode (env : Env) (M : Mode) (source : List Char) :
    scan_stage { env with mode := M } source = scan_stage env source := rfl

theorem line_stage_mode (env : Env) (M : Mode) (source : List Char) :
    line_stage { env with mode := M } source = line_stage env source := rfl

theorem filter_stage_mode (env : Env) (M : Mode) (ms : List Match) :
    filter_stage { env with mode := M } ms = filter_stage env ms := rfl

theorem merge_stage_mode (env : Env) (M : Mode) (ms : List Match) :
    merge_stage { env with mode := M } ms = merge_stage env ms := rfl

/-- C4: processing a file in dry-run mode never writes: the on-disk bytes
after `process_file` equal the bytes before, while the returned TextRefs
are exactly those of a real replace run (they carry the would-be replaced
line text); and a write can only ever happen in `SearchAndReplace` mode
(search-tool.cpp:413-416). -/
theorem C4_dry_run_frame (fn fn2 : String) (env env2 : Env) (source source2 out : List Char)
    (h : env.mode = Mode.SearchAndReplaceDryRun)
    (h2 : (process_file fn2 env2 source2).write = some out) :
    (process_file fn env source).write = none ∧
    disk_after source (process_file fn env source) = source ∧
    (process_file fn env source).refs =
      (process_file fn { env with mode := Mode.SearchAndReplace } source).refs ∧
    env2.mode = Mode.SearchAndReplace := by
  have hw : (process_file fn env source).write = none := by
    unfold process_file
    split
    · rfl
    · split
      · rfl
      · simp only []
        split
        · rfl
        · rw [h]
          simp
  refine ⟨hw, ?_, ?_, ?_⟩
  · simp [disk_after, hw]
  · by_cases hscan : scan_stage env source = []
    · simp [process_file, hscan, scan_stage_mode]
    · cases hline : line_stage env source with
      | none =>
        simp [process_file, hscan, hline, scan_stage_mode, line_stage_mode]
      | some ms0 =>
        by_cases hf : filter_stage env ms0 = []
        · simp [process_file, hscan, hline, hf, scan_stage_mode, line_stage_mode,
            filter_stage_mode]
        · simp [process_file, hscan, hline, hf, h, scan_stage_mode, line_stage_mode,
            filter_stage_mode, merge_stage_mode]
  · revert h2
    unfold process_file
    split
    · intro h2
      simp at h2
    · split
      · intro h2
        simp at h2
      · simp only []
        split
        · intro h2
          simp at h2
        · rcases hm : env2.mode with _ | _ | _
          · simp [hm]
          · intro _
            rfl
          · simp [hm]

theorem C4_witness :
    (process_file "n.txt"
        { string_needles := [['a']], replacement := ['b'],
          mode := Mode.SearchAndReplaceDryRun } ['a']).write = none ∧
    disk_after ['a']
        (process_file "n.txt"
          { string_needles := [['a']], replacement := ['b'],
            mode := Mode.SearchAndReplaceDryRun } ['a']) = ['a'] ∧
    (process_file "n.txt"
        { string_needles := [['a']], replacement := ['b'],
          mode := Mode.SearchAndReplaceDryRun } ['a']).refs =
      (process_file "n.txt"
          { { string_needles := [['a']], replacement := ['b'],
              mode := Mode.SearchAndReplaceDryRun : Env } with
            mode := Mode.SearchAndReplace } ['a']).refs ∧
    ({ string_needles := [['a']], replacement := ['b'],
       mode := Mode.SearchAndReplace : Env }).mode = Mode.SearchAndReplace :=
  C4_dry_run_frame "n.txt" "w.txt"
    { string_needles := [['a']], replacement := ['b'], mode := Mode.SearchAndReplaceDryRun }
    { string_needles := [['a']], replacement := ['b'], mode := Mode.SearchAndReplace }
    ['a'] ['a'] ['b'] rfl (by decide)

theorem TextRef_le_iff (a b : TextRef) :
    TextRef.le a b = true ↔
      (a.filename < b.filename ∨
        (a.filename = b.filename ∧
          (a.line < b.line ∨ (a.line = b.line ∧ a.lowest_column ≤ b.lowest_column)))) := by
  unfold TextRef.le
  by_cases hf : a.filename = b.filename
  · by_cases hl : a.line = b.line
    · simp [hf, hl, lt_irrefl]
    · simp [hf, hl, lt_irrefl]
  · simp [hf]

theorem TextRef_le_total (a b : TextRef) :
    TextRef.le a b = true ∨ TextRef.le b a = true := by
  rw [TextRef_le_iff, TextRef_le_iff]
  rcases lt_trichotomy a.filename b.filename with h | h | h
  · exact Or.inl (Or.inl h)
  · rcases Nat.lt_trichotomy a.line b.line with h2 | h2 | h2
    · exact Or.inl (Or.inr ⟨h, Or.inl h2⟩)
    · rcases Nat.le_total a.lowest_column b.lowest_column with h3 | h3
      · exact Or.inl (Or.inr ⟨h, Or.inr ⟨h2, h3⟩⟩)
      · exact Or.inr (Or.inr ⟨h.symm, Or.inr ⟨h2.symm, h3⟩⟩)
    · exact Or.inr (Or.inr ⟨h.symm, Or.inl h2⟩)
  · exact Or.inr (Or.inl h)

theorem TextRef_le_trans (a b c : TextRef)
    (h1 : TextRef.le a b = true) (h2 : TextRef.le b c = true) :
    TextRef.le a c = true := by
  rw [TextRef_le_iff] at h1 h2 ⊢
  rcases h1 with h1 | ⟨hf1, h1⟩
  · rcases h2 with h2 | ⟨hf2, _⟩
    · exact Or.inl (lt_trans h1 h2)
    · exact Or.inl (hf2 ▸ h1)
  · rcases h2 with h2 | ⟨hf2, h2⟩
    · exact Or.inl (hf1 ▸ h2)
    · refine Or.inr ⟨hf1.trans hf2, ?_⟩
      rcases h1 with h1 | ⟨hl1, h1⟩
      · rcases h2 with h2 | ⟨hl2, _⟩
        · exact Or.inl (Nat.lt_trans h1 h2)
        · exact Or.inl (hl2 ▸ h1)
      · rcases h2 with h2 | ⟨hl2, h2⟩
        · exact Or.inl (hl1 ▸ h2)
        · exact Or.inr ⟨hl1.trans hl2, Nat.le_trans h1 h2⟩

theorem enumFrom_snd_mem {α} : ∀ (l : List α) (n : Nat) (p : Nat × α),
    p ∈ List.enumFrom n l → p.2 ∈ l := by
  intro l
  induction l with
  | nil => intro n p h; simp [List.enumFrom] at h
  | cons a t ih =>
    intro n p h
    rw [List.enumFrom_cons, List.mem_cons] at h
    rcases h with rfl | h
    · exact List.mem_cons_self _ _
    · exact List.mem_cons_of_mem _ (ih (n + 1) p h)

theorem pairwise_enumFrom {α} {R : α → α → Prop} :
    ∀ (l : List α) (n : Nat), l.Pairwise R →
      (List.enumFrom n l).Pairwise (fun p q => R p.2 q.2) := by
  intro l
  induction l with
  | nil => intro n _; simp [List.enumFrom]
  | cons a t ih =>
    intro n h
    rcases h with _ | ⟨ha, ht⟩
    rw [List.enumFrom_cons]
    exact List.Pairwise.cons (fun q hq => ha q.2 (enumFrom_snd_mem t (n + 1) q hq))
      (ih (n + 1) ht)

theorem set_indices_pairwise (l : List TextRef)
    (h : l.Pairwise (fun x y => TextRef.le x y = true)) :
    (set_indices l).Pairwise (fun x y => TextRef.le x y = true) := by
  unfold set_indices List.enum
  rw [List.pairwise_map]
  exact pairwise_enumFrom l 0 h

theorem set_indices_length (l : List TextRef) : (set_indices l).length = l.length := by
  simp [set_indices]

theorem set_indices_get (l : List TextRef) (i : Nat) (h : i < (set_indices l).length) :
    ((set_indices l).get ⟨i, h⟩).index = i + 1 := by
  have hi : i < l.length := by
    rw [set_indices_length] at h
    exact h
  unfold set_indices
  rw [List.get_eq_getElem, List.getElem_map, List.getElem_enum]

theorem enumFrom_strip : ∀ (l : List TextRef) (n : Nat),
    ((List.enumFrom n l).map (fun p => { p.2 with index := p.1 + 1 })).map strip_index
      = l.map strip_index := by
  intro l
  induction l with
  | nil => intro n; simp [List.enumFrom]
  | cons a t ih =>
    intro n
    rw [List.enumFrom_cons]
    simp only [List.map_cons]
    rw [ih (n + 1)]
    rfl

theorem set_indices_strip (l : List TextRef) :
    (set_indices l).map strip_index = l.map strip_index :=
  enumFrom_strip l 0

/-- C7: after the scheduler join, the output step sorts the full TextRef
list once by the TextRef total order and then assigns indices 1..N in that
order: the result is sorted, its i-th element carries index i + 1, and up
to index renumbering it is a permutation of the input with the same
length. -/
theorem C7_output_sorted_and_numbered (refs : List TextRef) :
    (output_refs refs).Pairwise (fun a b => TextRef.le a b = true) ∧
    (∀ i (hi : i < (output_refs refs).length),
        ((output_refs refs).get ⟨i, hi⟩).index = i + 1) ∧
    ((output_refs refs).map strip_index).Perm (refs.map strip_index) ∧
    (output_refs refs).length = refs.length := by
  refine ⟨?_, ?_, ?_, ?_⟩
  · exact set_indices_pairwise _
      (sortLe_pairwise TextRef.le TextRef_le_total TextRef_le_trans refs)
  · intro i hi
    exact set_indices_get _ i hi
  · rw [output_refs, set_indices_strip]
    exact (sortLe_perm TextRef.le refs).map strip_index
  · rw [output_refs, set_indices_length]
    exact (sortLe_perm TextRef.le refs).length_eq

theorem lineEndOffsetsFrom_ne_nil (last : Nat) :
    ∀ (hay : List Char) (i : Nat), lineEndOffsetsFrom last hay i ≠ [] := by
  intro hay
  induction hay with
  | nil => intro i; simp [lineEndOffsetsFrom]
  | cons c rest ih =>
    intro i
    by_cases hc : c = '\n'
    · by_cases hl : last ≤ i
      · simp [lineEndOffsetsFrom, hc, hl]
      · simp [lineEndOffsetsFrom, hc, hl]
    · simpa [lineEndOffsetsFrom, hc] using ih (i + 1)

theorem lineEndOffsetsFrom_getLastD (last : Nat) :
    ∀ (hay : List Char) (i : Nat), last ≤ i + hay.length →
      last ≤ (lineEndOffsetsFrom last hay i).getLastD 0 := by
  intro hay
  induction hay with
  | nil =>
    intro i h
    simpa [lineEndOffsetsFrom] using h
  | cons c rest ih =>
    intro i h
    by_cases hc : c = '\n'
    · by_cases hl : last ≤ i
      · simp [lineEndOffsetsFrom, hc, hl]
      · have hrec := ih (i + 1) (by simp at h; omega)
        have hne := lineEndOffsetsFrom_ne_nil last rest (i + 1)
        simp only [lineEndOffsetsFrom, hc, if_true, hl, if_false]
        rw [List.getLastD_cons]
        rw [List.getLastD_eq_getLast?, List.getLast?_eq_getLast _ hne] at hrec ⊢
        simpa using hrec
    · have hrec := ih (i + 1) (by simp at h; omega)
      simpa [lineEndOffsetsFrom, hc] using hrec

theorem findLineIdxGo_some_lt (offsets : List Nat) (start : Nat) :
    ∀ (fuel line l : Nat), findLineIdxGo offsets start fuel line = some l →
      l < offsets.length := by
  intro fuel
  induction fuel with
  | zero => intro line l h; simp [findLineIdxGo] at h
  | succ fuel ih =>
    intro line l h
    unfold findLineIdxGo at h
    split at h
    · exact absurd h (by simp)
    · rename_i v hv
      split at h
      · exact ih (line + 1) l h
      · obtain rfl : line = l := by injection h
        exact (List.getElem?_eq_some_iff.mp hv).1

theorem findLineIdxGo_isSome (offsets : List Nat) (start : Nat)
    (hlast : start ≤ offsets.getLastD 0) :
    ∀ (fuel line : Nat), offsets.length < fuel + line → line < offsets.length →
      (findLineIdxGo offsets start fuel line).isSome := by
  intro fuel
  induction fuel with
  | zero => intro line h1 h2; omega
  | succ fuel ih =>
    intro line h1 h2
    unfold findLineIdxGo
    split
    · rename_i hv
      rw [List.getElem?_eq_none_iff] at hv
      omega
    · rename_i v hv
      by_cases hlt : v < start
      · rw [if_pos hlt]
        by_cases hend : line + 1 < offsets.length
        · exact ih (line + 1) (by omega) hend
        · exfalso
          have hline : line = offsets.length - 1 := by omega
          have hne : offsets ≠ [] := by
            intro hc
            rw [hc] at h2
            simp at h2
          have hv2 : offsets.getLast hne = v := by
            rw [List.getLast_eq_getElem]
            have := List.getElem?_eq_some_iff.mp hv
            obtain ⟨hlt2, hget⟩ := this
            rw [← hget]
            congr 1
            omega
          rw [List.getLastD_eq_getLast?, List.getLast?_eq_getLast _ hne, hv2] at hlast
          simp at hlast
          omega
      · rw [if_neg hlt]
        rfl

theorem assignLines_isSome_of (offsets : List Nat) :
    ∀ (ms : List Match) (line : Nat), line < offsets.length →
      (∀ m ∈ ms, m.match_start_index ≤ offsets.getLastD 0) →
      (assignLines offsets ms line).isSome := by
  intro ms
  induction ms with
  | nil => intro line _ _; simp [assignLines]
  | cons m rest ih =>
    intro line hline hb
    have h1 : (findLineIdx offsets m.match_start_index line).isSome := by
      exact findLineIdxGo_isSome offsets m.match_start_index
        (hb m (List.mem_cons_self _ _)) (offsets.length + 1) line (by omega) hline
    rw [Option.isSome_iff_exists] at h1
    obtain ⟨l, hl⟩ := h1
    have hl2 : l < offsets.length :=
      findLineIdxGo_some_lt offsets _ _ _ _ (by simpa [findLineIdx] using hl)
    have h2 := ih l hl2 (fun x hx => hb x (List.mem_cons_of_mem _ hx))
    rw [Option.isSome_iff_exists] at h2
    obtain ⟨ms2, hms2⟩ := h2
    unfold assignLines
    rw [hl]
    simp [hms2]

theorem mem_start_le_last :
    ∀ (l : List Match),
      l.Pairwise (fun a b => a.match_start_index ≤ b.match_start_index) →
      ∀ m ∈ l, m.match_start_index ≤ (l.getLastD default).match_start_index := by
  intro l
  induction l with
  | nil => simp
  | cons a t ih =>
    intro hp m hm
    rcases hp with _ | ⟨ha, ht⟩
    cases t with
    | nil =>
      rw [List.mem_singleton] at hm
      subst hm
      simp [List.getLastD]
    | cons b t2 =>
      have hlast : ((a :: b :: t2).getLastD default) = ((b :: t2).getLastD default) := by
        rw [List.getLastD_cons, List.getLastD_eq_getLast?, List.getLastD_eq_getLast?,
          List.getLast?_eq_getLast _ (List.cons_ne_nil b t2)]
        simp
      rw [hlast]
      rcases List.mem_cons.mp hm with rfl | hm2
      · have hmem : ((b :: t2).getLastD default) ∈ b :: t2 := by
          rw [List.getLastD_eq_getLast?, List.getLast?_eq_getLast _ (by simp)]
          exact List.getLast_mem _
        exact ha _ hmem
      · exact ih ht m hm2

/-- C10: in the line-assignment loop, for a non-empty list of matches in
ascending start-offset order whose last start offset lies within the
haystack, the monotone line cursor never runs past the line-end offsets
list built from the last match's start offset — the loop's assertion
`line < haystack_line_end_offsets.size()` always holds, modelled as
`assignLines` succeeding. -/
theorem C10_line_cursor_in_bounds (hay : List Char) (ms : List Match)
    (hne : ms ≠ [])
    (hsorted : ms.Pairwise (fun a b => a.match_start_index ≤ b.match_start_index))
    (hbound : (ms.getLastD default).match_start_index ≤ hay.length) :
    (assignLines
        (find_line_end_offsets hay (ms.getLastD default).match_start_index) ms 0).isSome := by
  set last := (ms.getLastD default).match_start_index with hlastdef
  have hne2 := lineEndOffsetsFrom_ne_nil last hay 0
  have hlen : 0 < (find_line_end_offsets hay last).length := by
    rw [find_line_end_offsets]
    cases hc : lineEndOffsetsFrom last hay 0 with
    | nil => exact absurd hc hne2
    | cons x xs => simp
  have hlastb : last ≤ (find_line_end_offsets hay last).getLastD 0 :=
    lineEndOffsetsFrom_getLastD last hay 0 (by simpa using hbound)
  exact assignLines_isSome_of _ ms 0 hlen
    (fun m hm => Nat.le_trans (mem_start_le_last ms hsorted m hm) hlastb)

theorem C10_witness :
    (['a', 'b', '\n', 'a'] : List Char) ≠ [] ∧
    (assignLines
        (find_line_end_offsets ['a', 'b', '\n', 'a']
          (([mkMatch 0 0 1, mkMatch 0 3 1].getLastD default).match_start_index))
        [mkMatch 0 0 1, mkMatch 0 3 1] 0).isSome :=
  ⟨by decide,
    C10_line_cursor_in_bounds ['a', 'b', '\n', 'a'] [mkMatch 0 0 1, mkMatch 0 3 1]
      (by decide) (by decide) (by decide)⟩

theorem digitChar_isDigit {d : Nat} (h : d < 10) :
    isDigitChar (Nat.digitChar d) = true := by
  interval_cases d <;> decide

theorem digitVal_digitChar {d : Nat} (h : d < 10) :
    digitVal (Nat.digitChar d) = d := by
  interval_cases d <;> decide

theorem renderNat_ne_nil (n : Nat) : renderNat n ≠ [] := by
  unfold renderNat
  split
  · simp
  · simp only [ne_eq, List.map_eq_nil_iff, List.reverse_eq_nil_iff]
    exact Nat.digits_ne_nil_iff_ne_zero.mpr (by assumption)

theorem renderNat_digits (n : Nat) : ∀ c ∈ renderNat n, isDigitChar c = true := by
  unfold renderNat
  split
  · intro c hc
    rw [List.mem_singleton] at hc
    subst hc
    decide
  · intro c hc
    rw [List.mem_map] at hc
    obtain ⟨d, hd, rfl⟩ := hc
    rw [List.mem_reverse] at hd
    exact digitChar_isDigit (Nat.digits_lt_base (by norm_num) hd)

theorem parseNat_renderNat (n : Nat) : parseNat (renderNat n) = some n := by
  by_cases hn : n = 0
  · subst hn
    decide
  · unfold parseNat
    rw [if_pos ⟨renderNat_ne_nil n, by rw [List.all_eq_true]; exact renderNat_digits n⟩]
    congr 1
    have h1 : (renderNat n).map digitVal = (Nat.digits 10 n).reverse := by
      unfold renderNat
      rw [if_neg hn, List.map_map]
      have h2 : ∀ d ∈ (Nat.digits 10 n).reverse,
          (digitVal ∘ Nat.digitChar) d = id d := by
        intro d hd
        exact digitVal_digitChar (Nat.digits_lt_base (by norm_num) (List.mem_reverse.mp hd))
      rw [List.map_congr_left h2, List.map_id]
    rw [h1, List.reverse_reverse]
    exact Nat.ofDigits_digits 10 n

theorem takeWhile_append_cons {p : α → Bool} :
    ∀ {xs : List α} {y : α} {t : List α}, (∀ x ∈ xs, p x = true) → p y = false →
      (xs ++ y :: t).takeWhile p = xs := by
  intro xs
  induction xs with
  | nil =>
    intro y t _ hy
    simp [List.takeWhile_cons, hy]
  | cons a as ih =>
    intro y t hxs hy
    rw [List.cons_append, List.takeWhile_cons, if_pos (hxs a (List.mem_cons_self _ _))]
    rw [ih (fun x hx => hxs x (List.mem_cons_of_mem _ hx)) hy]

theorem string_mk_toList (s : String) : String.mk s.toList = s := rfl

theorem from_line_to_line (r : TextRef)
    (hpath : ∀ c ∈ r.filename.toList, ¬ c = ':') :
    TextRef.from_line (TextRef.to_line r) = some (r.filename, r.line, r.lowest_column) := by
  have hcs : TextRef.to_line r =
      renderNat r.index ++ ')' :: ' ' ::
        (r.filename.toList ++ ':' ::
          (renderNat r.line ++ ':' :: renderNat r.lowest_column)) := by
    simp [TextRef.to_line]
  have hpred : ∀ c ∈ r.filename.toList, (!(c == ':')) = true := by
    intro c hc
    simpa using hpath c hc
  have h1 : (TextRef.to_line r).takeWhile isDigitChar = renderNat r.index := by
    rw [hcs]
    exact takeWhile_append_cons (renderNat_digits r.index) (by decide)
  have h2 : (TextRef.to_line r).drop (renderNat r.index).length =
      ')' :: ' ' ::
        (r.filename.toList ++ ':' ::
          (renderNat r.line ++ ':' :: renderNat r.lowest_column)) := by
    rw [hcs, List.drop_left]
  have h3 : (r.filename.toList ++ ':' ::
        (renderNat r.line ++ ':' :: renderNat r.lowest_column)).takeWhile
          (fun c => !(c == ':')) = r.filename.toList :=
    takeWhile_append_cons hpred (by decide)
  have h4 : (r.filename.toList ++ ':' ::
        (renderNat r.line ++ ':' :: renderNat r.lowest_column)).drop
          r.filename.toList.length =
      ':' :: (renderNat r.line ++ ':' :: renderNat r.lowest_column) :=
    List.drop_left _ _
  have h5 : (renderNat r.line ++ ':' :: renderNat r.lowest_column).takeWhile isDigitChar =
      renderNat r.line :=
    takeWhile_append_cons (renderNat_digits r.line) (by decide)
  have h6 : (renderNat r.line ++ ':' :: renderNat r.lowest_column).drop
        (renderNat r.line).length = ':' :: renderNat r.lowest_column :=
    List.drop_left _ _
  unfold TextRef.from_line
  simp only [h1, h2, parseNat_renderNat, h3, h4, h5, h6, string_mk_toList]

/-- C8: writing any list of final TextRefs to the persisted reference
format and parsing each written line back recovers, in order, exactly the
original (file path, line, column) triples; in particular the number of
records is preserved. -/
theorem C8_round_trip (refs : List TextRef)
    (hpath : ∀ r ∈ refs, ∀ c ∈ r.filename.toList, ¬ c = ':') :
    (write_refs refs).map TextRef.from_line =
      refs.map (fun r => some (r.filename, r.line, r.lowest_column)) ∧
    (write_refs refs).length = refs.length := by
  constructor
  · rw [write_refs, List.map_map]
    apply List.map_congr_left
    intro r hr
    exact from_line_to_line r (hpath r hr)
  · simp [write_refs]

theorem C8_witness :
    (∀ r ∈ [({ index := 7, filename := "/a/b.txt", line := 2,
               column_spread := [(3, 5)], message := ['x'] } : TextRef)],
        ∀ c ∈ r.filename.toList, ¬ c = ':') ∧
    ((write_refs [({ index := 7, filename := "/a/b.txt", line := 2,
                     column_spread := [(3, 5)], message := ['x'] } : TextRef)]).map
        TextRef.from_line =
      [({ index := 7, filename := "/a/b.txt", line := 2,
          column_spread := [(3, 5)], message := ['x'] } : TextRef)].map
        (fun r => some (r.filename, r.line, r.lowest_column)) ∧
      (write_refs [({ index := 7, filename := "/a/b.txt", line := 2,
                      column_spread := [(3, 5)], message := ['x'] } : TextRef)]).length =
        [({ index := 7, filename := "/a/b.txt", line := 2,
            column_spread := [(3, 5)], message := ['x'] } : TextRef)].length) :=
  ⟨by decide, C8_round_trip _ (by decide)⟩

theorem case_fold_length (s : List Char) : (case_fold s).length = s.length := by
  simp [case_fold]

theorem case_fold_substr (s : List Char) (p c : Nat) :
    case_fold (substr s p c) = substr (case_fold s) p c := by
  simp [case_fold, substr, List.map_take, List.map_drop]

theorem lineEndOffsetsFrom_ge (last : Nat) :
    ∀ (hay : List Char) (i : Nat), ∀ x ∈ lineEndOffsetsFrom last hay i, i ≤ x := by
  intro hay
  induction hay with
  | nil =>
    intro i x hx
    rw [lineEndOffsetsFrom, List.mem_singleton] at hx
    omega
  | cons c rest ih =>
    intro i x hx
    by_cases hc : c = '\n'
    · by_cases hl : last ≤ i
      · rw [lineEndOffsetsFrom, if_pos hc, if_pos hl, List.mem_singleton] at hx
        omega
      · rw [lineEndOffsetsFrom, if_pos hc, if_neg hl, List.mem_cons] at hx
        rcases hx with rfl | hx
        · exact le_refl x
        · exact Nat.le_of_succ_le (ih (i + 1) x hx)
    · rw [lineEndOffsetsFrom, if_neg hc] at hx
      exact Nat.le_of_succ_le (ih (i + 1) x hx)

theorem lineEndOffsetsFrom_le (last : Nat) :
    ∀ (hay : List Char) (i : Nat), ∀ x ∈ lineEndOffsetsFrom last hay i,
      x ≤ i + hay.length := by
  intro hay
  induction hay with
  | nil =>
    intro i x hx
    rw [lineEndOffsetsFrom, List.mem_singleton] at hx
    omega
  | cons c rest ih =>
    intro i x hx
    by_cases hc : c = '\n'
    · by_cases hl : last ≤ i
      · rw [lineEndOffsetsFrom, if_pos hc, if_pos hl, List.mem_singleton] at hx
        simp [hx]
      · rw [lineEndOffsetsFrom, if_pos hc, if_neg hl, List.mem_cons] at hx
        rcases hx with rfl | hx
        · simp
        · have := ih (i + 1) x hx
          simp at this ⊢
          omega
    · rw [lineEndOffsetsFrom, if_neg hc] at hx
      have := ih (i + 1) x hx
      simp at this ⊢
      omega

theorem lineEndOffsetsFrom_chain (last : Nat) :
    ∀ (hay : List Char) (i : Nat),
      (lineEndOffsetsFrom last hay i).Chain' (fun a b => a < b) := by
  intro hay
  induction hay with
  | nil => intro i; simp [lineEndOffsetsFrom]
  | cons c rest ih =>
    intro i
    by_cases hc : c = '\n'
    · by_cases hl : last ≤ i
      · simp [lineEndOffsetsFrom, hc, hl]
      · rw [lineEndOffsetsFrom, if_pos hc, if_neg hl]
        rw [List.chain'_cons']
        refine ⟨?_, ih (i + 1)⟩
        intro b hb
        have hbm : b ∈ lineEndOffsetsFrom last rest (i + 1) := by
          cases hh : lineEndOffsetsFrom last rest (i + 1) with
          | nil => rw [hh] at hb; simp at hb
          | cons y ys =>
            rw [hh] at hb
            simp at hb
            subst hb
            exact List.mem_cons_self _ _
        have := lineEndOffsetsFrom_ge last rest (i + 1) b hbm
        omega
    · rw [lineEndOffsetsFrom, if_neg hc]
      exact ih (i + 1)

theorem lineEndOffsetsFrom_pairwise (last : Nat) (hay : List Char) (i : Nat) :
    (lineEndOffsetsFrom last hay i).Pairwise (fun a b => a < b) := by
  rw [← List.chain'_iff_pairwise]
  exact lineEndOffsetsFrom_chain last hay i

theorem offsets_for_line_spec (offsets : List Nat)
    (hasc : offsets.Pairwise (fun a b => a < b)) (n : Nat) (s e : Nat)
    (h : offsets_for_line offsets n = some (s, e)) : e ∈ offsets ∧ s ≤ e := by
  unfold offsets_for_line at h
  split at h
  · exact absurd h (by simp)
  · split at h
    · exact absurd h (by simp)
    · rename_i e0 h1
      obtain ⟨hlt1, hget1⟩ := List.getElem?_eq_some_iff.mp h1
      split at h
      · simp only [Option.some.injEq, Prod.mk.injEq] at h
        obtain ⟨hs, he⟩ := h
        refine ⟨?_, by omega⟩
        rw [← he, ← hget1]
        exact List.getElem_mem _
      · split at h
        · exact absurd h (by simp)
        · rename_i p h2
          obtain ⟨hlt2, hget2⟩ := List.getElem?_eq_some_iff.mp h2
          simp only [Option.some.injEq, Prod.mk.injEq] at h
          obtain ⟨hs, he⟩ := h
          have hpe : p < e0 := by
            have hp := List.pairwise_iff_getElem.mp hasc (n - 2) (n - 1) hlt2 hlt1 (by omega)
            rw [hget1, hget2] at hp
            exact hp
          refine ⟨?_, by omega⟩
          rw [← he, ← hget1]
          exact List.getElem_mem _

theorem set_line_meta_bound (offsets : List Nat) (L : Nat)
    (hasc : offsets.Pairwise (fun a b => a < b))
    (hbnd : ∀ x ∈ offsets, x ≤ L) (m : Match) (l : Nat)
    (hm : m.line_start_index = 0 ∧ m.line_length = 0) :
    (set_line_meta offsets m l).line_start_index +
      (set_line_meta offsets m l).line_length ≤ L := by
  obtain ⟨hm1, hm2⟩ := hm
  unfold set_line_meta
  split
  · rename_i sidx eidx heq
    obtain ⟨hmem, hse⟩ := offsets_for_line_spec offsets hasc (l + 1) sidx eidx heq
    have := hbnd eidx hmem
    simp only []
    omega
  · simp only []
    omega

theorem string_search_zero (needles : List (List Char)) (hay : List Char) :
    ∀ m ∈ string_search needles hay, m.line_start_index = 0 ∧ m.line_length = 0 := by
  intro m hm
  rw [string_search, List.mem_flatten] at hm
  obtain ⟨l, hl, hml⟩ := hm
  rw [List.mem_map] at hl
  obtain ⟨p, _, rfl⟩ := hl
  rw [List.mem_map] at hml
  obtain ⟨o, _, rfl⟩ := hml
  exact ⟨rfl, rfl⟩

theorem sortMatches_mem (ms : List Match) (x : Match) :
    x ∈ sortMatches ms ↔ x ∈ ms :=
  (sortLe_perm matchLe ms).mem_iff

theorem sort_stage_mem (env : Env) (ms : List Match) (x : Match) :
    x ∈ sort_stage env ms ↔ x ∈ ms := by
  unfold sort_stage
  split
  · exact sortMatches_mem ms x
  · exact Iff.rfl

theorem assignLines_mem (offsets : List Nat) :
    ∀ (ms : List Match) (line : Nat) (res : List Match),
      assignLines offsets ms line = some res →
      ∀ x ∈ res, ∃ m ∈ ms, ∃ l, x = set_line_meta offsets m l := by
  intro ms
  induction ms with
  | nil =>
    intro line res h x hx
    simp [assignLines] at h
    subst h
    simp at hx
  | cons m rest ih =>
    intro line res h x hx
    unfold assignLines at h
    split at h
    · exact absurd h (by simp)
    · rename_i l hl
      split at h
      · exact absurd h (by simp)
      · rename_i ms2 hms2
        obtain rfl : set_line_meta offsets m l :: ms2 = res := by injection h
        rcases List.mem_cons.mp hx with rfl | hx2
        · exact ⟨m, List.mem_cons_self _ _, l, rfl⟩
        · obtain ⟨m2, hm2, l2, rfl⟩ := ih l ms2 hms2 x hx2
          exact ⟨m2, List.mem_cons_of_mem _ hm2, l2, rfl⟩

theorem filterAllGo_subset (nc : Nat) :
    ∀ (ms : List Match) (cl : Nat) (matched : Finset Nat) (run : List Match),
      ∀ x ∈ filterAllGo nc ms cl matched run, x ∈ run ∨ x ∈ ms := by
  intro ms
  induction ms with
  | nil =>
    intro cl matched run x hx
    unfold filterAllGo at hx
    split at hx
    · exact Or.inl hx
    · simp at hx
  | cons m rest ih =>
    intro cl matched run x hx
    unfold filterAllGo at hx
    split at hx
    · rcases ih _ _ _ x hx with h | h
      · rcases List.mem_append.mp h with h2 | h2
        · exact Or.inl h2
        · rw [List.mem_singleton] at h2
          exact Or.inr (by simp [h2])
      · exact Or.inr (List.mem_cons_of_mem _ h)
    · rcases List.mem_append.mp hx with h | h
      · split at h
        · exact Or.inl h
        · simp at h
      · rcases ih _ _ _ x h with h2 | h2
        · rw [List.mem_singleton] at h2
          exact Or.inr (by simp [h2])
        · exact Or.inr (List.mem_cons_of_mem _ h2)

theorem filterAll_subset (nc : Nat) (ms : List Match) :
    ∀ x ∈ filterAll nc ms, x ∈ ms := by
  intro x hx
  rcases filterAllGo_subset nc ms 0 ∅ [] x hx with h | h
  · simp at h
  · exact h

theorem filter_stage_subset (env : Env) (ms : List Match) :
    ∀ x ∈ filter_stage env ms, x ∈ ms := by
  intro x hx
  unfold filter_stage at hx
  split at hx
  · exact filterAll_subset _ ms x hx
  · exact hx

theorem updateLast_pres (P : α → Prop) (f : α → α) (hf : ∀ a, P a → P (f a)) :
    ∀ (l : List α), (∀ x ∈ l, P x) → ∀ x ∈ updateLast f l, P x := by
  intro l
  induction l with
  | nil => intro h x hx; simp [updateLast] at hx
  | cons a t ih =>
    intro h x hx
    cases t with
    | nil =>
      simp only [updateLast, List.mem_singleton] at hx
      subst hx
      exact hf a (h a (List.mem_cons_self _ _))
    | cons b t2 =>
      rw [show updateLast f (a :: b :: t2) = a :: updateLast f (b :: t2) from rfl,
        List.mem_cons] at hx
      rcases hx with rfl | hx
      · exact h x (List.mem_cons_self _ _)
      · exact ih (fun y hy => h y (List.mem_cons_of_mem _ hy)) x hx

theorem mergeSpreadsGo_pres (P : Match → Prop)
    (hadd : ∀ (m : Match) (s : List Stretch), P m → P (m.add_spread s)) :
    ∀ (ms : List Match) (cl : Nat) (acc : List Match),
      (∀ x ∈ acc, P x) → (∀ x ∈ ms, P x) →
      ∀ x ∈ mergeSpreadsGo ms cl acc, P x := by
  intro ms
  induction ms with
  | nil =>
    intro cl acc hacc _ x hx
    exact hacc x hx
  | cons m rest ih =>
    intro cl acc hacc hms x hx
    unfold mergeSpreadsGo at hx
    split at hx
    · exact ih cl _ (updateLast_pres P _ (fun a ha => hadd a m.spread ha) acc hacc)
        (fun y hy => hms y (List.mem_cons_of_mem _ hy)) x hx
    · refine ih m.line _ ?_ (fun y hy => hms y (List.mem_cons_of_mem _ hy)) x hx
      intro y hy
      rcases List.mem_append.mp hy with h | h
      · exact hacc y h
      · rw [List.mem_singleton] at h
        subst h
        exact hms y (List.mem_cons_self _ _)

theorem merge_spreads_pres (P : Match → Prop)
    (hadd : ∀ (m : Match) (s : List Stretch), P m → P (m.add_spread s))
    (hsimp : ∀ m : Match, P m → P m.simplify_spread)
    (ms : List Match) (hms : ∀ x ∈ ms, P x) :
    ∀ x ∈ merge_spreads ms, P x := by
  intro x hx
  rw [merge_spreads, List.mem_map] at hx
  obtain ⟨y, hy, rfl⟩ := hx
  exact hsimp y (mergeSpreadsGo_pres P hadd ms 0 [] (by simp) hms y hy)

theorem merge_stage_pres (P : Match → Prop)
    (hadd : ∀ (m : Match) (s : List Stretch), P m → P (m.add_spread s))
    (hsimp : ∀ m : Match, P m → P m.simplify_spread)
    (env : Env) (ms : List Match) (hms : ∀ x ∈ ms, P x) :
    ∀ x ∈ merge_stage env ms, P x := by
  intro x hx
  unfold merge_stage at hx
  split at hx
  · exact merge_spreads_pres P hadd hsimp ms hms x hx
  · exact hms x hx

theorem search_refs_message (fn : String) (source : List Char) (ms : List Match) :
    ∀ ref ∈ search_refs fn source ms, ∃ m ∈ ms,
      ref.message = substr source m.line_start_index m.line_length := by
  intro ref href
  rw [search_refs, List.mem_map] at href
  obtain ⟨p, hp, rfl⟩ := href
  exact ⟨p.2, enumFrom_snd_mem ms 0 p hp, rfl⟩

theorem line_stage_bound (env : Env) (source : List Char) (ms0 : List Match)
    (h : line_stage env source = some ms0) :
    ∀ m ∈ ms0,
      m.line_start_index + m.line_length ≤ (haystack_of env source).length := by
  intro m hm
  obtain ⟨m2, hm2, l, rfl⟩ := assignLines_mem _ _ _ _ h m hm
  have hz : m2.line_start_index = 0 ∧ m2.line_length = 0 :=
    string_search_zero env.string_needles (haystack_of env source) m2
      ((sort_stage_mem env _ m2).mp hm2)
  exact set_line_meta_bound _ _ (lineEndOffsetsFrom_pairwise _ _ 0)
    (fun x hx => by simpa using lineEndOffsetsFrom_le _ _ 0 x hx) m2 l hz

theorem occursAt_le {needle hay : List Char} {o : Nat} (ho : o ≤ hay.length)
    (h : occursAt needle hay o = true) : o + needle.length ≤ hay.length := by
  rw [occursAt, beq_iff_eq] at h
  have hlen := congrArg List.length h
  simp at hlen
  omega

theorem set_line_meta_spread (offsets : List Nat) (m : Match) (l : Nat) :
    (set_line_meta offsets m l).spread = m.spread := by
  unfold set_line_meta
  split <;> rfl

theorem string_search_spread_bound (needles : List (List Char)) (hay : List Char) :
    ∀ m ∈ string_search needles hay, ∀ s ∈ m.spread,
      s.1 ≤ s.2 ∧ s.2 ≤ hay.length := by
  intro m hm s hs
  rw [string_search, List.mem_flatten] at hm
  obtain ⟨l, hl, hml⟩ := hm
  rw [List.mem_map] at hl
  obtain ⟨p, hp, rfl⟩ := hl
  rw [List.mem_map] at hml
  obtain ⟨o, ho, rfl⟩ := hml
  rw [show (mkMatch p.1 o p.2.length).spread = [(o, o + p.2.length)] from rfl,
    List.mem_singleton] at hs
  subst hs
  obtain ⟨holt, hocc⟩ := (literalOffsets_mem p.2 hay o).mp ho
  exact ⟨by simp, occursAt_le (by omega) hocc⟩

theorem line_stage_spread_bound (env : Env) (source : List Char) (ms0 : List Match)
    (h : line_stage env source = some ms0) :
    ∀ m ∈ ms0, ∀ s ∈ m.spread,
      s.1 ≤ s.2 ∧ s.2 ≤ (haystack_of env source).length := by
  intro m hm
  obtain ⟨m2, hm2, l, rfl⟩ := assignLines_mem _ _ _ _ h m hm
  rw [set_line_meta_spread]
  exact string_search_spread_bound env.string_needles (haystack_of env source) m2
    ((sort_stage_mem env _ m2).mp hm2)

/-- C5: under case-insensitive search the haystack is a lower-cased copy of
the buffer and the fold is byte-length-preserving; every reported line
slice in Search mode is taken from the original unfolded buffer at offsets
that are valid in it (so the text's fold agrees with the corresponding
slice of the folded haystack); every matched span found on the folded
haystack is in bounds in the original buffer; and whatever the replace
path writes is the replace engine applied to the original unfolded
`source` buffer (search-tool.cpp:380,388,411 slice `source`, never the
folded copy). -/
theorem C5_case_fold_reporting (fn : String) (env : Env) (source : List Char)
    (hcase : env.search_case = SearchCase.Insensitive)
    (hmode : env.mode = Mode.Search) :
    (case_fold source).length = source.length ∧
    haystack_of env source = case_fold source ∧
    (∀ ref ∈ (process_file fn env source).refs, ∃ ls ll,
      ls + ll ≤ source.length ∧
      ref.message = substr source ls ll ∧
      case_fold ref.message = substr (case_fold source) ls ll) ∧
    (∀ ms0, line_stage env source = some ms0 →
      ∀ m ∈ ms0, ∀ s ∈ m.spread, s.1 ≤ s.2 ∧ s.2 ≤ source.length) ∧
    (∀ out,
      (process_file fn { env with mode := Mode.SearchAndReplace } source).write = some out →
      ∃ ms0, line_stage env source = some ms0 ∧
        out = (replace_phase fn source env.replacement
          (merge_stage env (filter_stage env ms0))).1) := by
  have hhay : haystack_of env source = case_fold source := by
    unfold haystack_of
    rw [hcase]
  refine ⟨case_fold_length source, hhay, ?_, ?_, ?_⟩
  · intro ref href
    by_cases hscan : scan_stage env source = []
    · simp [process_file, hscan] at href
    · cases hline : line_stage env source with
      | none => simp [process_file, hscan, hline] at href
      | some ms0 =>
        by_cases hf : filter_stage env ms0 = []
        · simp [process_file, hscan, hline, hf] at href
        · rw [show (process_file fn env source).refs
                = search_refs fn source (merge_stage env (filter_stage env ms0)) from by
              simp [process_file, hscan, hline, hf, hmode]] at href
          obtain ⟨m, hmmem, hmsg⟩ := search_refs_message fn source _ ref href
          have hP : m.line_start_index + m.line_length ≤ (haystack_of env source).length := by
            refine merge_stage_pres
              (fun x => x.line_start_index + x.line_length ≤ (haystack_of env source).length)
              (fun x s hx => hx) (fun x hx => hx) env _ ?_ m hmmem
            intro y hy
            exact line_stage_bound env source ms0 hline y (filter_stage_subset env ms0 y hy)
          refine ⟨m.line_start_index, m.line_length, ?_, hmsg, ?_⟩
          · rw [hhay, case_fold_length] at hP
            exact hP
          · rw [hmsg]
            exact case_fold_substr source _ _
  · intro ms0 hms0 m hm t ht
    have := line_stage_spread_bound env source ms0 hms0 m hm t ht
    rw [hhay, case_fold_length] at this
    exact this
  · intro out hout
    by_cases hscan : scan_stage env source = []
    · simp [process_file, hscan, scan_stage_mode] at hout
    · cases hline : line_stage env source with
      | none =>
        simp [process_file, hscan, hline, scan_stage_mode, line_stage_mode] at hout
      | some ms0 =>
        by_cases hf : filter_stage env ms0 = []
        · simp [process_file, hscan, hline, hf, scan_stage_mode, line_stage_mode,
            filter_stage_mode] at hout
        · have hw : (process_file fn { env with mode := Mode.SearchAndReplace } source).write
              = some (replace_phase fn source env.replacement
                (merge_stage env (filter_stage env ms0))).1 := by
            simp [process_file, hscan, hline, hf, scan_stage_mode, line_stage_mode,
              filter_stage_mode, merge_stage_mode]
          rw [hw] at hout
          injection hout with hout2
          exact ⟨ms0, rfl, hout2.symm⟩

/-- A concrete insensitive Search-mode configuration. -/
def envC5 : Env :=
  { string_needles := [['a']], search_case := SearchCase.Insensitive, mode := Mode.Search }

theorem C5_witness :
    envC5.search_case = SearchCase.Insensitive ∧
    envC5.mode = Mode.Search ∧
    ((case_fold ['A', 'b']).length = (['A', 'b'] : List Char).length ∧
      haystack_of envC5 ['A', 'b'] = case_fold ['A', 'b'] ∧
      (∀ ref ∈ (process_file "f.txt" envC5 ['A', 'b']).refs, ∃ ls ll,
        ls + ll ≤ (['A', 'b'] : List Char).length ∧
        ref.message = substr ['A', 'b'] ls ll ∧
        case_fold ref.message = substr (case_fold ['A', 'b']) ls ll) ∧
      (∀ ms0, line_stage envC5 ['A', 'b'] = some ms0 →
        ∀ m ∈ ms0, ∀ s ∈ m.spread,
          s.1 ≤ s.2 ∧ s.2 ≤ (['A', 'b'] : List Char).length) ∧
      (∀ out,
        (process_file "f.txt" { envC5 with mode := Mode.SearchAndReplace }
            ['A', 'b']).write = some out →
        ∃ ms0, line_stage envC5 ['A', 'b'] = some ms0 ∧
          out = (replace_phase "f.txt" ['A', 'b'] envC5.replacement
            (merge_stage envC5 (filter_stage envC5 ms0))).1)) :=
  ⟨rfl, rfl, C5_case_fold_reporting "f.txt" envC5 ['A', 'b'] rfl rfl⟩

/-- The output-buffer and source-cursor components of the replace engine,
extracted from the nested loop: one step per stretch, over the flattened
stretch sequence. -/
def replace_core (source repl : List Char) : List Stretch → List Char × Nat → List Char × Nat
  | [], st => st
  | s :: rest, st =>
    replace_core source repl rest
      (st.1 ++ substr source st.2 (s.1 - st.2) ++ repl, st.2 + (s.1 - st.2) + (s.2 - s.1))

theorem replace_stretch_core (source repl source_line : List Char) (ls : Nat) :
    ∀ (stretches : List Stretch) (acc : ReplaceAcc),
      ((stretches.foldl (replace_stretch source repl source_line ls) acc).output,
        (stretches.foldl (replace_stretch source repl source_line ls) acc).source_index)
        = replace_core source repl stretches (acc.output, acc.source_index) := by
  intro stretches
  induction stretches with
  | nil => intro acc; rfl
  | cons s rest ih =>
    intro acc
    rw [List.foldl_cons]
    rw [ih (replace_stretch source repl source_line ls acc s)]
    rfl

theorem replace_core_append (source repl : List Char) :
    ∀ (xs ys : List Stretch) (st : List Char × Nat),
      replace_core source repl (xs ++ ys) st
        = replace_core source repl ys (replace_core source repl xs st) := by
  intro xs
  induction xs with
  | nil => intro ys st; rfl
  | cons s rest ih =>
    intro ys st
    rw [List.cons_append]
    show replace_core source repl (rest ++ ys) _ = _
    rw [ih]
    rfl

theorem replace_match_core (fn : String) (source repl : List Char) :
    ∀ (ms : List Match) (st : List Char × Nat × List TextRef),
      ((ms.foldl (replace_match fn source repl) st).1,
        (ms.foldl (replace_match fn source repl) st).2.1)
        = replace_core source repl (all_stretches ms) (st.1, st.2.1) := by
  intro ms
  induction ms with
  | nil => intro st; rfl
  | cons m rest ih =>
    intro st
    rw [List.foldl_cons, ih]
    have hstep : ((replace_match fn source repl st m).1,
        (replace_match fn source repl st m).2.1)
        = replace_core source repl m.spread (st.1, st.2.1) := by
      unfold replace_match
      simp only []
      rw [← replace_stretch_core source repl
        (substr source m.line_start_index m.line_length) m.line_start_index m.spread
        { output := st.1, source_index := st.2.1 }]
    rw [show all_stretches (m :: rest) = m.spread ++ all_stretches rest from by
      simp [all_stretches]]
    rw [replace_core_append, ← hstep]

theorem replace_core_spec (source repl : List Char) :
    ∀ (spans : List Stretch) (out : List Char) (c : Nat),
      (∀ s ∈ spans, s.1 ≤ s.2 ∧ s.2 ≤ source.length) →
      List.Chain' (fun s t => s.2 ≤ t.1) spans →
      (spans ≠ [] → c ≤ spans.headI.1) → c ≤ source.length →
      (replace_core source repl spans (out, c)).1 ++
          source.drop (replace_core source repl spans (out, c)).2
        = out ++ spec_replace source repl c spans := by
  intro spans
  induction spans with
  | nil => intro out c _ _ _ _; rfl
  | cons s rest ih =>
    intro out c hb hchain hhead hc
    obtain ⟨f, l⟩ := s
    obtain ⟨hfl, hlen⟩ := hb (f, l) (List.mem_cons_self _ _)
    simp only [] at hfl hlen
    have hcf : c ≤ f := hhead (by simp)
    have hcur : c + (f - c) + (l - f) = l := by omega
    rw [show replace_core source repl ((f, l) :: rest) (out, c)
        = replace_core source repl rest
          (out ++ substr source c (f - c) ++ repl, c + (f - c) + (l - f)) from rfl]
    rw [hcur]
    have hrest_head : rest ≠ [] → l ≤ rest.headI.1 := by
      intro hne
      cases rest with
      | nil => exact absurd rfl hne
      | cons t ts =>
        have := List.chain'_cons.mp hchain
        exact this.1
    rw [ih (out ++ substr source c (f - c) ++ repl) l
      (fun x hx => hb x (List.mem_cons_of_mem _ hx))
      (List.chain'_cons'.mp hchain).2 hrest_head (by omega)]
    show _ = out ++ ((source.take f).drop c ++ repl ++ spec_replace source repl l rest)
    have hsub : substr source c (f - c) = (source.take f).drop c := by
      rw [substr, List.drop_take]
    rw [hsub]
    simp [List.append_assoc]

theorem spec_replace_length (source repl : List Char) :
    ∀ (spans : List Stretch) (c : Nat),
      (∀ s ∈ spans, s.1 ≤ s.2 ∧ s.2 ≤ source.length) →
      List.Chain' (fun s t => s.2 ≤ t.1) spans →
      (spans ≠ [] → c ≤ spans.headI.1) → c ≤ source.length →
      (spec_replace source repl c spans).length + c + spansLen spans
        = source.length + spans.length * repl.length := by
  intro spans
  induction spans with
  | nil =>
    intro c _ _ _ hc
    show (source.drop c).length + c + spansLen [] = _
    simp [spansLen]
    omega
  | cons s rest ih =>
    intro c hb hchain hhead hc
    obtain ⟨f, l⟩ := s
    obtain ⟨hfl, hlen⟩ := hb (f, l) (List.mem_cons_self _ _)
    simp only [] at hfl hlen
    have hcf : c ≤ f := hhead (by simp)
    have hrest_head : rest ≠ [] → l ≤ rest.headI.1 := by
      intro hne
      cases rest with
      | nil => exact absurd rfl hne
      | cons t ts => exact (List.chain'_cons.mp hchain).1
    have hrec := ih l (fun x hx => hb x (List.mem_cons_of_mem _ hx))
      (List.chain'_cons'.mp hchain).2 hrest_head (by omega)
    show ((source.take f).drop c ++ repl ++ spec_replace source repl l rest).length
        + c + spansLen ((f, l) :: rest) = _
    have hgap : ((source.take f).drop c).length = f - c := by
      simp
      omega
    have hspan : spansLen ((f, l) :: rest) = (l - f) + spansLen rest := by
      simp [spansLen]
    simp only [List.length_append, hgap, hspan, List.length_cons]
    have hmul : (rest.length + 1) * repl.length = rest.length * repl.length + repl.length := by
      ring
    rw [hmul]
    omega

/-- C1: for a buffer and a set of disjoint, offset-ascending, in-bounds
matched spans, the replace engine's output buffer equals the original
content with each matched span exactly replaced by the replacement (text
outside the spans byte-identical, per the spec-side `spec_replace`), and
the output length satisfies length(out) + sum(len(span)) =
length(source) + count(spans) * len(replacement) — the Nat form of
"original length plus sum(len(replacement) − len(match))". -/
theorem C1_replace_byte_exact (fn : String) (source repl : List Char) (ms : List Match)
    (hb : ∀ s ∈ all_stretches ms, s.1 ≤ s.2 ∧ s.2 ≤ source.length)
    (hchain : List.Chain' (fun s t => s.2 ≤ t.1) (all_stretches ms)) :
    (replace_phase fn source repl ms).1 = spec_replace source repl 0 (all_stretches ms) ∧
    (replace_phase fn source repl ms).1.length + spansLen (all_stretches ms)
      = source.length + (all_stretches ms).length * repl.length := by
  have hmain : (replace_phase fn source repl ms).1
      = spec_replace source repl 0 (all_stretches ms) := by
    unfold replace_phase
    simp only []
    have hcore := replace_match_core fn source repl ms ([], 0, [])
    have h1 : (ms.foldl (replace_match fn source repl) ([], 0, [])).1
        = (replace_core source repl (all_stretches ms) ([], 0)).1 := by
      rw [← hcore]
    have h2 : (ms.foldl (replace_match fn source repl) ([], 0, [])).2.1
        = (replace_core source repl (all_stretches ms) ([], 0)).2 := by
      rw [← hcore]
    rw [h1, h2]
    have := replace_core_spec source repl (all_stretches ms) [] 0 hb hchain
      (fun _ => Nat.zero_le _) (Nat.zero_le _)
    simpa using this
  refine ⟨hmain, ?_⟩
  rw [hmain]
  have := spec_replace_length source repl (all_stretches ms) 0 hb hchain
    (fun _ => Nat.zero_le _) (Nat.zero_le _)
  omega

/-- A concrete one-match list with span [1, 3). -/
def msC1 : List Match := [{ spread := [(1, 3)] }]

/-- A concrete six-byte buffer. -/
def srcC1 : List Char := ['a', 'b', 'c', 'd', 'e', 'f']

theorem C1_witness :
    (∀ s ∈ all_stretches msC1, s.1 ≤ s.2 ∧ s.2 ≤ srcC1.length) ∧
    List.Chain' (fun s t => s.2 ≤ t.1) (all_stretches msC1) ∧
    ((replace_phase "f.txt" srcC1 ['X', 'Y'] msC1).1
        = spec_replace srcC1 ['X', 'Y'] 0 (all_stretches msC1) ∧
      (replace_phase "f.txt" srcC1 ['X', 'Y'] msC1).1.length + spansLen (all_stretches msC1)
        = srcC1.length + (all_stretches msC1).length * (['X', 'Y'] : List Char).length) :=
  ⟨by decide, by simp [all_stretches, msC1], C1_replace_byte_exact "f.txt" srcC1 ['X', 'Y'] msC1
    (by decide) (by simp [all_stretches, msC1])⟩

theorem indexSet_singleton (m : Match) : indexSet [m] = {m.needle_index} := by
  simp [indexSet]

theorem indexSet_append_singleton (run : List Match) (m : Match) :
    indexSet (run ++ [m]) = insert m.needle_index (indexSet run) := by
  unfold indexSet
  rw [List.map_append, List.toFinset_append]
  ext x
  simp [or_comm]

theorem indexSet_subset_range (nc : Nat) (run : List Match)
    (hidx : ∀ x ∈ run, x.needle_index < nc) : indexSet run ⊆ Finset.range nc := by
  intro i hi
  rw [indexSet, List.mem_toFinset, List.mem_map] at hi
  obtain ⟨m, hm, rfl⟩ := hi
  rw [Finset.mem_range]
  exact hidx m hm

theorem card_eq_iff_covers (nc : Nat) (run : List Match)
    (hidx : ∀ x ∈ run, x.needle_index < nc) :
    (indexSet run).card = nc ↔ runCoversAll nc run = true := by
  constructor
  · intro h
    have hsub := indexSet_subset_range nc run hidx
    have heq : indexSet run = Finset.range nc :=
      Finset.eq_of_subset_of_card_le hsub (by rw [h, Finset.card_range])
    rw [runCoversAll, List.all_eq_true]
    intro i hi
    rw [List.mem_range] at hi
    have hmem : i ∈ indexSet run := by
      rw [heq, Finset.mem_range]
      exact hi
    rw [indexSet, List.mem_toFinset, List.mem_map] at hmem
    obtain ⟨m, hm, rfl⟩ := hmem
    rw [List.any_eq_true]
    exact ⟨m, hm, by simp⟩
  · intro h
    have hsub := indexSet_subset_range nc run hidx
    have hsub2 : Finset.range nc ⊆ indexSet run := by
      intro i hi
      rw [Finset.mem_range] at hi
      rw [runCoversAll, List.all_eq_true] at h
      have h2 := h i (by rw [List.mem_range]; exact hi)
      rw [List.any_eq_true] at h2
      obtain ⟨m, hm, hmi⟩ := h2
      rw [indexSet, List.mem_toFinset, List.mem_map]
      exact ⟨m, hm, by simpa using hmi⟩
    rw [Finset.Subset.antisymm hsub hsub2, Finset.card_range]

theorem chunkByLine_cons (m : Match) (rest : List Match) :
    chunkByLine (m :: rest) =
      (m :: rest.takeWhile (fun x => x.line = m.line)) ::
        chunkByLine (rest.dropWhile (fun x => x.line = m.line)) := by
  rw [chunkByLine]

theorem filterAllGo_spec (nc : Nat) :
    ∀ (ms : List Match) (cl : Nat) (run : List Match),
      cl ≠ 0 →
      (∀ m ∈ ms, 1 ≤ m.line ∧ m.needle_index < nc) →
      (∀ x ∈ run, x.line = cl) →
      (∀ x ∈ run, x.needle_index < nc) →
      filterAllGo nc ms cl (indexSet run) run =
        (if runCoversAll nc (run ++ ms.takeWhile (fun x => x.line = cl)) = true
          then run ++ ms.takeWhile (fun x => x.line = cl) else []) ++
        ((chunkByLine (ms.dropWhile (fun x => x.line = cl))).filter
          (runCoversAll nc)).flatten := by
  intro ms
  induction ms with
  | nil =>
    intro cl run hcl _ _ hidx
    rw [List.takeWhile_nil, List.dropWhile_nil, List.append_nil]
    show (if (indexSet run).card = nc then run else []) = _
    rw [chunkByLine]
    simp only [List.filter_nil, List.flatten_nil, List.append_nil]
    by_cases hc : runCoversAll nc run = true
    · rw [if_pos ((card_eq_iff_covers nc run hidx).mpr hc), if_pos hc]
    · rw [if_neg (fun h => hc ((card_eq_iff_covers nc run hidx).mp h)), if_neg hc]
  | cons m rest ih =>
    intro cl run hcl hms hrun hidx
    by_cases hml : m.line = cl
    · have hstep : filterAllGo nc (m :: rest) cl (indexSet run) run
          = filterAllGo nc rest m.line (insert m.needle_index (indexSet run)) (run ++ [m]) := by
        rw [filterAllGo, if_pos (Or.inr hml)]
      rw [hstep, ← indexSet_append_singleton, hml]
      have hrec := ih cl (run ++ [m]) hcl
        (fun x hx => hms x (List.mem_cons_of_mem _ hx))
        (fun x hx => by
          rcases List.mem_append.mp hx with h | h
          · exact hrun x h
          · rw [List.mem_singleton] at h
            rw [h]
            exact hml)
        (fun x hx => by
          rcases List.mem_append.mp hx with h | h
          · exact hidx x h
          · rw [List.mem_singleton] at h
            rw [h]
            exact (hms m (List.mem_cons_self _ _)).2)
      rw [hrec]
      have hpred : decide (m.line = cl) = true := by simpa using hml
      rw [List.takeWhile_cons, if_pos hpred, List.dropWhile_cons, if_pos hpred]
      simp [List.append_assoc]
    · have hmlpos : 1 ≤ m.line := (hms m (List.mem_cons_self _ _)).1
      have hstep : filterAllGo nc (m :: rest) cl (indexSet run) run
          = (if (indexSet run).card = nc then run else []) ++
              filterAllGo nc rest m.line (indexSet [m]) [m] := by
        rw [indexSet_singleton, filterAllGo, if_neg (not_or.mpr ⟨hcl, hml⟩)]
      rw [hstep]
      have hrec := ih m.line [m] (by omega)
        (fun x hx => hms x (List.mem_cons_of_mem _ hx))
        (fun x hx => by
          rw [List.mem_singleton] at hx
          rw [hx])
        (fun x hx => by
          rw [List.mem_singleton] at hx
          rw [hx]
          exact (hms m (List.mem_cons_self _ _)).2)
      rw [hrec]
      have hflushif : (if (indexSet run).card = nc then run else [])
          = (if runCoversAll nc run = true then run else []) := by
        by_cases hc : runCoversAll nc run = true
        · rw [if_pos ((card_eq_iff_covers nc run hidx).mpr hc), if_pos hc]
        · rw [if_neg (fun h => hc ((card_eq_iff_covers nc run hidx).mp h)), if_neg hc]
      rw [hflushif]
      have hpred : decide (m.line = cl) = false := by simpa using hml
      rw [List.takeWhile_cons, hpred, List.dropWhile_cons, hpred]
      simp only [Bool.false_eq_true, if_false]
      rw [chunkByLine_cons, List.filter_cons]
      by_cases hcr : runCoversAll nc run = true
      · by_cases hcov :
            runCoversAll nc (m :: rest.takeWhile (fun x => x.line = m.line)) = true
        · simp [hcr, hcov, List.append_assoc]
        · simp [hcr, hcov, List.append_assoc]
      · by_cases hcov :
            runCoversAll nc (m :: rest.takeWhile (fun x => x.line = m.line)) = true
        · simp [hcr, hcov, List.append_assoc]
        · simp [hcr, hcov, List.append_assoc]

theorem filterAll_spec (nc : Nat) (ms : List Match)
    (h : ∀ m ∈ ms, 1 ≤ m.line ∧ m.needle_index < nc) :
    filterAll nc ms = filterAllSpec nc ms := by
  cases ms with
  | nil =>
    unfold filterAll filterAllGo filterAllSpec
    rw [chunkByLine]
    simp
  | cons m rest =>
    unfold filterAll
    rw [show filterAllGo nc (m :: rest) 0 ∅ []
        = filterAllGo nc rest m.line (insert m.needle_index ∅) ([] ++ [m])
        from by rw [filterAllGo, if_pos (Or.inl rfl)]]
    rw [show insert m.needle_index ∅ = indexSet ([] ++ [m]) from by
      rw [List.nil_append, indexSet_singleton]
      simp]
    have hrec := filterAllGo_spec nc rest m.line ([] ++ [m])
      (by have := (h m (List.mem_cons_self _ _)).1; omega)
      (fun x hx => h x (List.mem_cons_of_mem _ hx))
      (fun x hx => by
        rw [List.nil_append, List.mem_singleton] at hx
        rw [hx])
      (fun x hx => by
        rw [List.nil_append, List.mem_singleton] at hx
        rw [hx]
        exact (h m (List.mem_cons_self _ _)).2)
    rw [hrec]
    rw [filterAllSpec, chunkByLine_cons, List.filter_cons]
    rw [List.nil_append]
    by_cases hcov : runCoversAll nc (m :: rest.takeWhile (fun x => x.line = m.line)) = true
    · rw [if_pos (by simpa using hcov), if_pos (by simpa using hcov)]
      simp
    · rw [if_neg (by simpa using hcov), if_neg (by simpa using hcov)]
      simp

/-- C3: with `MatchType::All` and at least two needles, the filter keeps a
contiguous same-line run exactly when every needle index appears in it, and
kept runs are retained unmodified (the result is the concatenation of the
kept runs); with `MatchType::Any`, or with a single needle, the filter
stage passes the match list through unchanged. -/
theorem C3_all_any_filter (env : Env) (ms : List Match) (n1 : List Char)
    (hline : ∀ m ∈ ms, 1 ≤ m.line)
    (hidx : ∀ m ∈ ms, m.needle_index < env.string_needles.length)
    (hmt : env.match_type = MatchType.All)
    (hnc : 2 ≤ env.string_needles.length) :
    filter_stage env ms = filterAllSpec env.string_needles.length ms ∧
    filter_stage { env with match_type := MatchType.Any } ms = ms ∧
    filter_stage { env with string_needles := [n1] } ms = ms := by
  refine ⟨?_, ?_, ?_⟩
  · unfold filter_stage
    rw [if_pos ⟨hmt, by omega⟩]
    exact filterAll_spec _ ms (fun m hm => ⟨hline m hm, hidx m hm⟩)
  · unfold filter_stage
    rw [if_neg (by simp)]
  · unfold filter_stage
    rw [if_neg (by simp)]

theorem C3_witness :
    (∀ m ∈ [({ needle_index := 0, line := 1 } : Match),
        ({ needle_index := 1, line := 1 } : Match),
        ({ needle_index := 0, line := 2 } : Match)], 1 ≤ m.line) ∧
    (filter_stage { string_needles := [['a'], ['b']], match_type := MatchType.All }
        [({ needle_index := 0, line := 1 } : Match),
          ({ needle_index := 1, line := 1 } : Match),
          ({ needle_index := 0, line := 2 } : Match)] =
      filterAllSpec 2
        [({ needle_index := 0, line := 1 } : Match),
          ({ needle_index := 1, line := 1 } : Match),
          ({ needle_index := 0, line := 2 } : Match)] ∧
      filter_stage { string_needles := [['a'], ['b']], match_type := MatchType.Any }
        [({ needle_index := 0, line := 1 } : Match),
          ({ needle_index := 1, line := 1 } : Match),
          ({ needle_index := 0, line := 2 } : Match)] =
        [({ needle_index := 0, line := 1 } : Match),
          ({ needle_index := 1, line := 1 } : Match),
          ({ needle_index := 0, line := 2 } : Match)] ∧
      filter_stage { string_needles := [['z']], match_type := MatchType.All }
        [({ needle_index := 0, line := 1 } : Match),
          ({ needle_index := 1, line := 1 } : Match),
          ({ needle_index := 0, line := 2 } : Match)] =
        [({ needle_index := 0, line := 1 } : Match),
          ({ needle_index := 1, line := 1 } : Match),
          ({ needle_index := 0, line := 2 } : Match)]) :=
  ⟨by decide,
    C3_all_any_filter { string_needles := [['a'], ['b']], match_type := MatchType.All }
      [{ needle_index := 0, line := 1 }, { needle_index := 1, line := 1 },
        { needle_index := 0, line := 2 }] ['z']
      (by decide) (by decide) rfl (by decide)⟩

theorem updateLast_append_singleton (f : α → α) :
    ∀ (l : List α) (a : α), updateLast f (l ++ [a]) = l ++ [f a] := by
  intro l
  induction l with
  | nil => intro a; rfl
  | cons b t ih =>
    intro a
    cases t with
    | nil => rfl
    | cons c t2 =>
      show b :: updateLast f ((c :: t2) ++ [a]) = b :: ((c :: t2) ++ [f a])
      rw [ih a]

theorem mergeSpreadsGo_spec :
    ∀ (ms : List Match) (cl : Nat) (done : List Match) (cur : Match),
      cl ≠ 0 → (∀ m ∈ ms, 1 ≤ m.line) → cur.line = cl →
      mergeSpreadsGo ms cl (done ++ [cur]) =
        done ++ ({ cur with spread := cur.spread ++
            ((ms.takeWhile (fun x => x.line = cl)).map Match.spread).flatten } ::
          (chunkByLine (ms.dropWhile (fun x => x.line = cl))).map mergedOf) := by
  intro ms
  induction ms with
  | nil =>
    intro cl done cur _ _ _
    show done ++ [cur] = _
    rw [List.takeWhile_nil, List.dropWhile_nil, chunkByLine]
    simp
  | cons m rest ih =>
    intro cl done cur hcl hms hcur
    by_cases hml : cl = m.line
    · have hstep : mergeSpreadsGo (m :: rest) cl (done ++ [cur])
          = mergeSpreadsGo rest cl (done ++ [cur.add_spread m.spread]) := by
        rw [mergeSpreadsGo, if_pos hml, updateLast_append_singleton]
      rw [hstep]
      rw [ih cl done (cur.add_spread m.spread) hcl
        (fun x hx => hms x (List.mem_cons_of_mem _ hx)) hcur]
      have hpred : decide (m.line = cl) = true := by simp [hml]
      rw [List.takeWhile_cons, if_pos hpred, List.dropWhile_cons, if_pos hpred]
      simp [Match.add_spread, List.append_assoc]
    · have hstep : mergeSpreadsGo (m :: rest) cl (done ++ [cur])
          = mergeSpreadsGo rest m.line ((done ++ [cur]) ++ [m]) := by
        rw [mergeSpreadsGo, if_neg hml]
      rw [hstep]
      rw [ih m.line (done ++ [cur]) m
        (by have := (hms m (List.mem_cons_self _ _)); omega)
        (fun x hx => hms x (List.mem_cons_of_mem _ hx)) rfl]
      have hpred : decide (m.line = cl) = false := by
        simp
        exact fun h => hml h.symm
      rw [List.takeWhile_cons, hpred, List.dropWhile_cons, hpred]
      simp only [Bool.false_eq_true, if_false]
      rw [chunkByLine_cons]
      simp [mergedOf, List.append_assoc]

theorem merge_spreads_spec (ms : List Match) (h : ∀ m ∈ ms, 1 ≤ m.line) :
    merge_spreads ms =
      (chunkByLine ms).map (fun run => Match.simplify_spread (mergedOf run)) := by
  cases ms with
  | nil =>
    unfold merge_spreads mergeSpreadsGo
    rw [chunkByLine]
    rfl
  | cons m rest =>
    unfold merge_spreads
    have hstep : mergeSpreadsGo (m :: rest) 0 []
        = mergeSpreadsGo rest m.line ([] ++ [m]) := by
      rw [mergeSpreadsGo, if_neg (by
        have := h m (List.mem_cons_self _ _)
        omega)]
    rw [hstep]
    rw [mergeSpreadsGo_spec rest m.line [] m
      (by have := h m (List.mem_cons_self _ _); omega)
      (fun x hx => h x (List.mem_cons_of_mem _ hx)) rfl]
    rw [chunkByLine_cons]
    simp [mergedOf, List.map_map]

theorem insertStretch_mem (s : Stretch) :
    ∀ (l : List Stretch) (x : Stretch), x ∈ insertStretch s l ↔ x = s ∨ x ∈ l := by
  intro l
  induction l with
  | nil => intro x; simp [insertStretch]
  | cons t ts ih =>
    intro x
    unfold insertStretch
    split
    · simp
    · rw [List.mem_cons, ih x, List.mem_cons]
      tauto

theorem sortStretches_mem :
    ∀ (ss : List Stretch) (x : Stretch), x ∈ sortStretches ss ↔ x ∈ ss := by
  intro ss
  induction ss with
  | nil => intro x; simp [sortStretches]
  | cons s rest ih =>
    intro x
    rw [sortStretches, insertStretch_mem, ih, List.mem_cons]

theorem insertStretch_map (ls : Nat) (s : Stretch) (hs : ls ≤ s.1) :
    ∀ (l : List Stretch), (∀ t ∈ l, ls ≤ t.1) →
      insertStretch (shiftCol ls s) (l.map (shiftCol ls))
        = (insertStretch s l).map (shiftCol ls) := by
  intro l
  induction l with
  | nil => intro _; rfl
  | cons t ts ih =>
    intro hl
    have ht : ls ≤ t.1 := hl t (List.mem_cons_self _ _)
    rw [List.map_cons]
    show (if (shiftCol ls s).1 ≤ (shiftCol ls t).1 then _ else _) = _
    by_cases hcmp : s.1 ≤ t.1
    · rw [if_pos (by simp [shiftCol]; omega)]
      rw [show insertStretch s (t :: ts) = s :: t :: ts from by
        rw [insertStretch, if_pos hcmp]]
      rfl
    · rw [if_neg (by simp [shiftCol]; omega)]
      rw [show insertStretch s (t :: ts) = t :: insertStretch s ts from by
        rw [insertStretch, if_neg hcmp]]
      rw [List.map_cons, ih (fun u hu => hl u (List.mem_cons_of_mem _ hu))]

theorem sortStretches_map (ls : Nat) :
    ∀ (ss : List Stretch), (∀ t ∈ ss, ls ≤ t.1) →
      sortStretches (ss.map (shiftCol ls)) = (sortStretches ss).map (shiftCol ls) := by
  intro ss
  induction ss with
  | nil => intro _; rfl
  | cons s rest ih =>
    intro h
    rw [List.map_cons]
    show insertStretch (shiftCol ls s) (sortStretches (rest.map (shiftCol ls))) = _
    rw [ih (fun t ht => h t (List.mem_cons_of_mem _ ht))]
    rw [insertStretch_map ls s (h s (List.mem_cons_self _ _))]
    · rfl
    · intro t ht
      exact h t (List.mem_cons_of_mem _ ((sortStretches_mem rest t).mp ht))

theorem mergeTouchingGo_map (ls : Nat) :
    ∀ (rest : List Stretch) (cur : Stretch), ls ≤ cur.2 →
      (∀ t ∈ rest, ls ≤ t.1 ∧ t.1 ≤ t.2) →
      mergeTouchingGo (shiftCol ls cur) (rest.map (shiftCol ls))
        = (mergeTouchingGo cur rest).map (shiftCol ls) := by
  intro rest
  induction rest with
  | nil => intro cur _ _; rfl
  | cons t ts ih =>
    intro cur hcur hl
    obtain ⟨ht1, ht2⟩ := hl t (List.mem_cons_self _ _)
    rw [List.map_cons]
    show (if (shiftCol ls t).1 ≤ (shiftCol ls cur).2 then _ else _) = _
    by_cases hcmp : t.1 ≤ cur.2
    · rw [if_pos (by simp [shiftCol]; omega)]
      rw [show mergeTouchingGo cur (t :: ts) = mergeTouchingGo (cur.1, max cur.2 t.2) ts from by
        rw [mergeTouchingGo, if_pos hcmp]]
      have hmax : shiftCol ls (cur.1, max cur.2 t.2)
          = ((shiftCol ls cur).1, max (shiftCol ls cur).2 (shiftCol ls t).2) := by
        simp [shiftCol]
        omega
      rw [← ih (cur.1, max cur.2 t.2) (by simp; omega)
        (fun u hu => hl u (List.mem_cons_of_mem _ hu)), hmax]
    · rw [if_neg (by simp [shiftCol]; omega)]
      rw [show mergeTouchingGo cur (t :: ts) = cur :: mergeTouchingGo t ts from by
        rw [mergeTouchingGo, if_neg hcmp]]
      rw [List.map_cons, ih t (by omega) (fun u hu => hl u (List.mem_cons_of_mem _ hu))]

theorem simplifySpread_map (ls : Nat) (ss : List Stretch)
    (hss : ∀ s ∈ ss, ls ≤ s.1 ∧ s.1 ≤ s.2) :
    simplifySpread (ss.map (shiftCol ls)) = (simplifySpread ss).map (shiftCol ls) := by
  unfold simplifySpread
  rw [sortStretches_map ls ss (fun t ht => (hss t ht).1)]
  cases hsort : sortStretches ss with
  | nil => rfl
  | cons s rest =>
    rw [List.map_cons]
    show mergeTouchingGo (shiftCol ls s) (rest.map (shiftCol ls)) = _
    have hs : ls ≤ s.2 := by
      have := hss s ((sortStretches_mem ss s).mp (by rw [hsort]; exact List.mem_cons_self _ _))
      omega
    rw [mergeTouchingGo_map ls rest s hs (fun t ht => by
      have := hss t ((sortStretches_mem ss t).mp (by rw [hsort]; exact List.mem_cons_of_mem _ ht))
      omega)]
    rfl

/-- C6: with compaction (merge spreads) requested, contiguous same-line
matches are merged into one record per line whose range set is the
simplified union of the contributors' ranges; without compaction the merge
stage passes every match through unchanged; and the simplify step commutes
with the Search-mode column translation, so the merged record's column
range set is also the simplified union of the translated contributor
ranges. -/
theorem C6_merge_compaction (env : Env) (ms : List Match) (ls : Nat) (ss : List Stretch)
    (hline : ∀ m ∈ ms, 1 ≤ m.line)
    (hmerge : env.merge_spreads = MergeSpreads.Yes)
    (hss : ∀ s ∈ ss, ls ≤ s.1 ∧ s.1 ≤ s.2) :
    merge_stage env ms =
      (chunkByLine ms).map (fun run => Match.simplify_spread (mergedOf run)) ∧
    merge_stage { env with merge_spreads := MergeSpreads.No } ms = ms ∧
    (∀ m : Match, column_spread_of m = m.spread.map (shiftCol m.line_start_index)) ∧
    simplifySpread (ss.map (shiftCol ls)) = (simplifySpread ss).map (shiftCol ls) := by
  refine ⟨?_, rfl, fun _ => rfl, simplifySpread_map ls ss hss⟩
  unfold merge_stage
  rw [hmerge]
  exact merge_spreads_spec ms hline

/-- A concrete compacting configuration. -/
def envC6 : Env := { string_needles := [['a']], merge_spreads := MergeSpreads.Yes }

/-- Two same-line matches with touching spans. -/
def msC6 : List Match :=
  [{ needle_index := 0, spread := [(2, 4)], line := 1 },
    { needle_index := 0, spread := [(4, 6)], line := 1 }]

theorem C6_witness :
    (∀ m ∈ msC6, 1 ≤ m.line) ∧
    (merge_stage envC6 msC6 =
        (chunkByLine msC6).map (fun run => Match.simplify_spread (mergedOf run)) ∧
      merge_stage { envC6 with merge_spreads := MergeSpreads.No } msC6 = msC6 ∧
      (∀ m : Match, column_spread_of m = m.spread.map (shiftCol m.line_start_index)) ∧
      simplifySpread ([(2, 4), (4, 6)].map (shiftCol 1))
        = (simplifySpread [(2, 4), (4, 6)]).map (shiftCol 1)) :=
  ⟨by decide, C6_merge_compaction envC6 msC6 1 [(2, 4), (4, 6)] (by decide) rfl (by decide)⟩

end Iota
